import Mathlib

/-!
Verification development for the symbol-table core (SymbolUtil.ts) of the
Spyglass repository. The TypeScript code is shallowly embedded: JavaScript
objects with identity (Symbols referenced through `relations.aliasOf`
pointers) are modelled by giving every symbol a numeric `id`; a pointer is
the id of the referenced symbol, and an in-place mutation through a pointer
is an update of every live symbol carrying that id. JavaScript maps keyed
by strings are association lists preserving insertion order, which is the
iteration order of Object.keys.
-/

set_option maxHeartbeats 1000000

namespace Spyglass

/-- Modelled from the spec: the visibility levels Block, File, Public and
Restricted (spec section 3 and glossary); the defining file Symbol.ts is not
under src. -/
inductive SymbolVisibility : Type where
  | Block
  | File
  | Public
  | Restricted
  deriving DecidableEq

/-- Modelled from the spec: the five usage kinds (spec section 3); the
defining file Symbol.ts is not under src. -/
inductive SymbolUsageType : Type where
  | declaration
  | definition
  | implementation
  | reference
  | typeDefinition
  deriving DecidableEq

/-- Modelled from the spec: the list SymbolUsageTypes that
removeLocationsFromMap iterates, in the order the spec lists the kinds. -/
def SymbolUsageTypes : List SymbolUsageType :=
  [.declaration, .definition, .implementation, .reference, .typeDefinition]

/-- Modelled from the spec: a SymbolLocation holds the document URI, an
optional range and full range, and the isUriBound flag (spec section 3).
Derived posRange fields and the access metadata are omitted; no claim
depends on them. -/
structure SymbolLocation where
  uri : String
  range : Option (Nat × Nat) := none
  fullRange : Option (Nat × Nat) := none
  isUriBound : Bool := false
  deriving DecidableEq

/-- Scalar fields of a Symbol. `relations` is flattened to its `aliasOf`
key, the only relation SymbolUtil.ts treats specially; `aliasOf` holds the
id of the target symbol, modelling the TS object pointer. `aliasAmount` is
an integer because the JS counter can be decremented below zero. -/
structure SymCore where
  id : Nat := 0
  category : String := ""
  identifier : String := ""
  desc : Option String := none
  subcategory : Option String := none
  visibility : Option SymbolVisibility := none
  visibilityRestriction : Option (List String) := none
  aliasOf : Option Nat := none
  aliasAmount : Option Int := none
  declaration : Option (List SymbolLocation) := none
  definition : Option (List SymbolLocation) := none
  implementation : Option (List SymbolLocation) := none
  reference : Option (List SymbolLocation) := none
  typeDefinition : Option (List SymbolLocation) := none
  deriving DecidableEq

/-- A Symbol: its scalar core plus the optional nested member map. An
absent member map and an empty member map are distinct, as in the TS code. -/
inductive Sym : Type where
  | mk (core : SymCore) (members : Option (List (String × Sym)))

def Sym.core : Sym → SymCore
  | .mk c _ => c

def Sym.members : Sym → Option (List (String × Sym))
  | .mk _ ms => ms

abbrev SymbolMap := List (String × Sym)

abbrev SymbolTable := List (String × SymbolMap)

abbrev SymbolStack := List SymbolTable

/-- Reading `obj[k]`: the value stored under a string key, or none. -/
def getVal {α : Type} (m : List (String × α)) (k : String) : Option α :=
  match m with
  | [] => none
  | (k1, v) :: rest => if k1 = k then some v else getVal rest k

/-- Writing `obj[k] = v`: an existing key keeps its position, a new key is
appended, matching JS object insertion-order semantics. -/
def setVal {α : Type} (m : List (String × α)) (k : String) (v : α) : List (String × α) :=
  match m with
  | [] => [(k, v)]
  | (k1, v1) :: rest => if k1 = k then (k, v) :: rest else (k1, v1) :: setVal rest k v

/-- The location list of a symbol core for a given usage kind. -/
def SymCore.locs (c : SymCore) : SymbolUsageType → Option (List SymbolLocation)
  | .declaration => c.declaration
  | .definition => c.definition
  | .implementation => c.implementation
  | .reference => c.reference
  | .typeDefinition => c.typeDefinition

/-- Writing the location list of a symbol core for a given usage kind. -/
def SymCore.setLocs (c : SymCore) (t : SymbolUsageType) (l : List SymbolLocation) : SymCore :=
  match t with
  | .declaration => { c with declaration := some l }
  | .definition => { c with definition := some l }
  | .implementation => { c with implementation := some l }
  | .reference => { c with reference := some l }
  | .typeDefinition => { c with typeDefinition := some l }

/-- JS falsiness of `symbol[type]?.length`: the list is absent or empty. -/
def lenFalsy : Option (List SymbolLocation) → Bool
  | none => true
  | some l => l.isEmpty

/-- JS falsiness of `symbol.aliasAmount`: undefined or zero. -/
def amountFalsy : Option Int → Bool
  | none => true
  | some n => n == 0

/-- The removal condition of SymbolUtil.trimMap: every usage list is empty
or absent and the alias amount is falsy. -/
def SymCore.trimable (c : SymCore) : Bool :=
  lenFalsy c.declaration && lenFalsy c.definition && lenFalsy c.implementation
    && lenFalsy c.reference && lenFalsy c.typeDefinition && amountFalsy c.aliasAmount

mutual

/-- Structure size of a symbol, used as a measure. -/
def sizeSym : Sym → Nat
  | .mk _ ms => 1 + sizeMembers ms

def sizeMembers : Option (List (String × Sym)) → Nat
  | none => 0
  | some l => sizeMap l

def sizeMap : List (String × Sym) → Nat
  | [] => 0
  | (_, s) :: rest => sizeSym s + sizeMap rest

end

mutual

/-- Mutation through a pointer: apply `f` to the core of every symbol in the
given symbol whose id is `t` (the symbol itself or any member). -/
def updSymById (t : Nat) (f : SymCore → SymCore) : Sym → Sym
  | .mk c ms => .mk (if c.id = t then f c else c) (updMembersById t f ms)

def updMembersById (t : Nat) (f : SymCore → SymCore) :
    Option (List (String × Sym)) → Option (List (String × Sym))
  | none => none
  | some l => some (updMapById t f l)

def updMapById (t : Nat) (f : SymCore → SymCore) : List (String × Sym) → List (String × Sym)
  | [] => []
  | (k, s) :: rest => (k, updSymById t f s) :: updMapById t f rest

end

/-- One alias reference-count side effect carried by the event mechanism. -/
inductive AliasEff : Type where
  | created (target : Nat)
  | removed (target : Nat)
  deriving DecidableEq

/-- Effect of the symbolAliasCreated handler registered in the SymbolUtil
constructor: `target.aliasAmount ??= 0; target.aliasAmount++`. -/
def aliasCreatedEffect (c : SymCore) : SymCore :=
  { c with aliasAmount := some (c.aliasAmount.getD 0 + 1) }

/-- Effect of the symbolAliasRemoved handler registered in the SymbolUtil
constructor: decrement `target.aliasAmount` when it is defined. This is also
the direct decrement performed by trimMap on the target of a removed alias. -/
def aliasRemovedEffect (c : SymCore) : SymCore :=
  match c.aliasAmount with
  | none => c
  | some n => { c with aliasAmount := some (n - 1) }

/-- Apply one alias effect to one symbol core, guarded by the target id. -/
def applyEffCore (e : AliasEff) (c : SymCore) : SymCore :=
  match e with
  | .created t => if c.id = t then aliasCreatedEffect c else c
  | .removed t => if c.id = t then aliasRemovedEffect c else c

/-- Apply a chronological list of alias effects to one symbol core. -/
def applyEffsCore (es : List AliasEff) (c : SymCore) : SymCore :=
  es.foldl (fun c e => applyEffCore e c) c

def applyEffMap (e : AliasEff) (m : SymbolMap) : SymbolMap :=
  match e with
  | .created t => updMapById t aliasCreatedEffect m
  | .removed t => updMapById t aliasRemovedEffect m

/-- Apply a chronological list of alias effects everywhere in a map. -/
def applyEffsMap (es : List AliasEff) (m : SymbolMap) : SymbolMap :=
  es.foldl (fun m e => applyEffMap e m) m

def applyEffSym (e : AliasEff) (s : Sym) : Sym :=
  match e with
  | .created t => updSymById t aliasCreatedEffect s
  | .removed t => updSymById t aliasRemovedEffect s

/-- Apply a chronological list of alias effects everywhere in a symbol. -/
def applyEffsSym (es : List AliasEff) (s : Sym) : Sym :=
  es.foldl (fun s e => applyEffSym e s) s

def applyEffTable (e : AliasEff) (tb : SymbolTable) : SymbolTable :=
  tb.map (fun q => (q.1, applyEffMap e q.2))

/-- Apply a chronological list of alias effects everywhere in a table. -/
def applyEffsTable (es : List AliasEff) (tb : SymbolTable) : SymbolTable :=
  es.foldl (fun tb e => applyEffTable e tb) tb

/-- Kinds of events published through the EventPublisher. -/
inductive EventKind : Type where
  | symbolCreated
  | symbolAmended
  | symbolRemoved
  | symbolAliasCreated
  | symbolAliasRemoved
  | symbolLocationCreated
  | symbolLocationRemoved
  deriving DecidableEq

/-- Modelled from the spec: the EventPublisher (service/EventPublisher.ts is
not under src) is an in-process pub/sub channel; a trigger appends the event
to the published stream and synchronously runs the constructor-registered
handlers, whose reference-count effects are the AliasEff values above. Event
payloads are reduced to the path, the subject symbol id and the alias target
id; no claim depends on the other payload fields. -/
structure Event where
  kind : EventKind
  path : List String
  symId : Nat
  target : Option Nat := none
  deriving DecidableEq

/-- The mutable state of a SymbolUtil instance: the fresh-id counter
(modelling JS object identity), the global table, the per-URI docStacks, the
isUriBinding flag, the stream of published events and the logger output. -/
structure UtilState where
  counter : Nat := 0
  global : SymbolTable := []
  docStacks : List (String × SymbolStack) := []
  isUriBinding : Bool := false
  events : List Event := []
  log : List String := []

/-- Apply alias effects to every symbol held in the state. -/
def UtilState.applyEffs (st : UtilState) (es : List AliasEff) : UtilState :=
  { st with
    global := applyEffsTable es st.global,
    docStacks := st.docStacks.map (fun q => (q.1, q.2.map (applyEffsTable es))) }

/-- Result type of SymbolUtil.lookup / lookupTable / lookupTables. -/
structure LookupResult where
  parentSymbol : Option Sym
  map : Option SymbolMap
  symbol : Option Sym

/-- The loop body of SymbolUtil.lookupTable, recursing over the remaining
path segments. `parent` and `map` are the mutable parentSymbol and map
variables; the symbol variable is recomputed each iteration. On a missing
non-final segment both parentSymbol and map are cleared; on a missing final
segment they are kept so the caller can materialize the member. -/
def lookupTableGo (parent : Option Sym) (map : Option SymbolMap) :
    List String → LookupResult
  | [] => ⟨parent, map, none⟩
  | [seg] => ⟨parent, map, map.bind (fun m => getVal m seg)⟩
  | seg :: seg2 :: rest =>
    match map.bind (fun m => getVal m seg) with
    | none => ⟨none, none, none⟩
    | some s => lookupTableGo (some s) s.members (seg2 :: rest)

/-- SymbolUtil.lookupTable: resolve a dotted path inside one table. -/
def lookupTable (table : SymbolTable) (category : String) (path : List String) :
    LookupResult :=
  lookupTableGo none (getVal table category) path

/-- The loop of SymbolUtil.lookupTables over the reversed chain: return the
first full result whose symbol is present; otherwise record the first
partial parentSymbol/map pair seen and keep scanning. -/
def lookupTablesGo (category : String) (path : List String)
    (recP : Option Sym) (recM : Option SymbolMap) :
    List SymbolTable → LookupResult
  | [] => ⟨recP, recM, none⟩
  | tb :: rest =>
    let r := lookupTable tb category path
    if r.symbol.isSome then r
    else
      if recP.isNone && recM.isNone && (r.parentSymbol.isSome || r.map.isSome) then
        lookupTablesGo category path r.parentSymbol r.map rest
      else
        lookupTablesGo category path recP recM rest

/-- SymbolUtil.lookupTables: `tables` is ordered from the global table to
the innermost block, and is traversed from the last table to the first. -/
def lookupTables (tables : List SymbolTable) (category : String) (path : List String) :
    LookupResult :=
  lookupTablesGo category path none none tables.reverse

/-- SymbolUtil.getStack: the stack registered for a URI, or the implicit
fresh one-frame stack `[{}]`. -/
def UtilState.getStackList (st : UtilState) (uri : String) : SymbolStack :=
  (getVal st.docStacks uri).getD [[]]

/-- The state effect of SymbolUtil.getStack: register the one-frame stack
when the URI has none yet. -/
def UtilState.ensureStack (st : UtilState) (uri : String) : UtilState :=
  match getVal st.docStacks uri with
  | some _ => st
  | none => { st with docStacks := setVal st.docStacks uri [[]] }

/-- SymbolUtil.lookup: search the chain `[global, ...stack]`; with no URI
the chain is just the global table. -/
def UtilState.lookup (st : UtilState) (category : String) (path : List String)
    (uri : Option String) : LookupResult :=
  let stack := match uri with
    | some u => st.getStackList u
    | none => []
  lookupTables (st.global :: stack) category path

/-- SymbolUtil.isVisible: Restricted symbols are never visible (the
workspace-root check is unimplemented); every other visibility is visible. -/
def isVisible (s : Sym) : Bool :=
  match s.core.visibility with
  | some .Restricted => false
  | _ => true

/-- SymbolUtil.getVisibleSymbols (URI overload): the category map found by a
lookup with an empty path, filtered by visibility. Only the returned map is
modelled; the stack-creating side effect of getStack does not change it. -/
def UtilState.getVisibleSymbols (st : UtilState) (uri : Option String) (category : String) :
    SymbolMap :=
  match (st.lookup category [] uri).map with
  | none => []
  | some m => m.filter (fun q => isVisible q.2)

/-- SymbolUtil.resolveAlias follows `relations.aliasOf` pointers with no
cycle guard; the pointer graph is abstracted as `g`, mapping a symbol id to
the id of its alias target. The fuel argument makes the possibly divergent
TS recursion total: `none` means the recursion did not finish within the
given number of steps. -/
def resolveAliasFuel (g : Nat → Option Nat) : Nat → Nat → Option Nat
  | 0, _ => none
  | fuel + 1, s =>
    match g s with
    | some t => resolveAliasFuel g fuel t
    | none => some s

/-- An explicit finite acyclic `aliasOf` chain: consecutive elements are
linked by `g` and the last element has no alias target. -/
def isAliasChain (g : Nat → Option Nat) : List Nat → Bool
  | [] => false
  | [x] => g x == none
  | x :: y :: rest => g x == some y && isAliasChain g (y :: rest)

mutual

/-- All symbol cores contained in a symbol, in pre-order. -/
def coresOfSym : Sym → List SymCore
  | .mk c ms => c :: coresOfMembers ms

def coresOfMembers : Option (List (String × Sym)) → List SymCore
  | none => []
  | some l => coresOfMap l

def coresOfMap : List (String × Sym) → List SymCore
  | [] => []
  | (_, s) :: rest => coresOfSym s ++ coresOfMap rest

end

/-- All symbol cores contained in a table. -/
def coresOfTable (tb : SymbolTable) : List SymCore :=
  (tb.map (fun q => coresOfMap q.2)).flatten

/-- All symbol cores currently present in the global table or any document
stack of the state. -/
def UtilState.allCores (st : UtilState) : List SymCore :=
  coresOfTable st.global
    ++ (st.docStacks.map (fun q => (q.2.map coresOfTable).flatten)).flatten

/-- The number of currently present symbols whose aliasOf points at `t`. -/
def UtilState.aliasCountOf (st : UtilState) (t : Nat) : Nat :=
  (st.allCores.filter (fun c => c.aliasOf == some t)).length

/-- The core of the currently present symbol with a given id, if any. -/
def UtilState.coreById (st : UtilState) (i : Nat) : Option SymCore :=
  st.allCores.find? (fun c => c.id == i)

/-- The aliasOf pointer graph of all symbols held in a state. -/
def UtilState.aliasGraph (st : UtilState) : Nat → Option Nat :=
  fun i => (st.coreById i).bind (fun c => c.aliasOf)

/-- The relations part of a SymbolAddition, flattened to the aliasOf key
like symbol relations; a present key carries the id of the target symbol. -/
structure RelationsAdd where
  aliasOf : Option Nat := none
  deriving DecidableEq

/-- The `data` part of a SymbolAddition (metadata to merge). -/
structure SymbolAdditionData where
  desc : Option String := none
  relations : Option RelationsAdd := none
  subcategory : Option String := none
  visibility : Option SymbolVisibility := none
  visibilityRestriction : Option (List String) := none
  deriving DecidableEq

/-- The `usage` part of a SymbolAddition. Syntax-node anchored usages are
modelled by their range; the node back-reference is outside the table state. -/
structure SymbolAdditionUsage where
  type : Option SymbolUsageType := none
  range : Option (Nat × Nat) := none
  fullRange : Option (Nat × Nat) := none
  deriving DecidableEq

/-- A SymbolAddition: optional metadata and optional usage. -/
structure SymbolAddition where
  data : Option SymbolAdditionData := none
  usage : Option SymbolAdditionUsage := none
  deriving DecidableEq

/-- SymbolUtil.amendSymbolMetadata, inGlobalTable: a visibility that stores
the symbol in the global table (undefined, Public or Restricted). -/
def inGlobalTable : Option SymbolVisibility → Bool
  | none => true
  | some .Public => true
  | some .Restricted => true
  | some .Block => false
  | some .File => false

/-- The visibilityRestriction step of amendSymbolMetadata: a non-empty
restriction list is concatenated onto the existing one. -/
def vrStep (c : SymCore) (d : SymbolAdditionData) : SymCore :=
  match d.visibilityRestriction with
  | none => c
  | some l =>
    if l.isEmpty then c
    else { c with visibilityRestriction := some (c.visibilityRestriction.getD [] ++ l) }

/-- The relations-merge step of amendSymbolMetadata: when the addition
carries a non-empty relations object whose aliasOf differs from the current
one, publish symbolAliasRemoved for the old target (when present) and
symbolAliasCreated for the new one, then assign aliasOf. Returns the updated
core, the reference-count effects and the published events, in order. -/
def relStep (path : List String) (c : SymCore) (d : SymbolAdditionData) :
    SymCore × List AliasEff × List Event :=
  match d.relations with
  | none => (c, [], [])
  | some rel =>
    match rel.aliasOf with
    | none => (c, [], [])
    | some t =>
      if c.aliasOf = some t then ({ c with aliasOf := some t }, [], [])
      else
        match c.aliasOf with
        | some old =>
          ({ c with aliasOf := some t },
            [.removed old, .created t],
            [⟨.symbolAliasRemoved, path, c.id, some old⟩,
             ⟨.symbolAliasCreated, path, c.id, some t⟩])
        | none =>
          ({ c with aliasOf := some t },
            [.created t],
            [⟨.symbolAliasCreated, path, c.id, some t⟩])

/-- SymbolUtil.amendSymbolMetadata: merge the addition data field by field
in source order (desc, relations, subcategory, visibility, restriction).
A visibility change across storage tiers throws; the boolean is the thrown
flag, and the returned symbol is the state of the object at the throw point,
because the TS code mutates it in place. Alias reference-count effects are
returned to be applied to the whole state; they only touch aliasAmount
fields, which nothing in this function reads, so deferring them is
equivalent to the immediate TS handler execution. -/
def amendSymbolMetadata (path : List String) (s : Sym) (dOpt : Option SymbolAdditionData) :
    Sym × List AliasEff × List Event × Bool :=
  match dOpt with
  | none => (s, [], [], false)
  | some d =>
    let c0 := s.core
    let c1 := match d.desc with
      | some x => { c0 with desc := some x }
      | none => c0
    let r := relStep path c1 d
    let c2 := r.1
    let c3 := match d.subcategory with
      | some x => { c2 with subcategory := some x }
      | none => c2
    match d.visibility with
    | some v =>
      if c3.visibility = some v || (inGlobalTable c3.visibility && inGlobalTable (some v)) then
        (Sym.mk (vrStep { c3 with visibility := some v } d) s.members, r.2.1, r.2.2, false)
      else
        (Sym.mk c3 s.members, r.2.1, r.2.2, true)
    | none =>
      (Sym.mk (vrStep c3 d) s.members, r.2.1, r.2.2, false)

/-- SymbolUtil.amendSymbolUsage: append one usage location of the given kind
(defaulting to reference) and publish symbolLocationCreated. A document
whose URI is not of the file: scheme has its ranges deleted from the
location. The range defaults to the degenerate range. -/
def amendSymbolUsage (path : List String) (s : Sym) (usage : Option SymbolAdditionUsage)
    (docUri : String) (isUriBinding : Bool) : Sym × List Event :=
  match usage with
  | none => (s, [])
  | some u =>
    let t := u.type.getD .reference
    let arr := (s.core.locs t).getD []
    let range := u.range.getD (0, 0)
    let loc0 : SymbolLocation :=
      { uri := docUri, range := some range, fullRange := u.fullRange, isUriBound := isUriBinding }
    let loc := if docUri.startsWith "file:" then loc0
      else { loc0 with range := none, fullRange := none }
    (Sym.mk (s.core.setLocs t (arr ++ [loc])) s.members,
      [⟨.symbolLocationCreated, path, s.core.id, none⟩])

/-- SymbolUtil.amendSymbol: metadata merge, then usage recording. When the
metadata merge throws, the usage is not recorded and the partially mutated
symbol is returned together with the thrown flag. -/
def amendSymbol (path : List String) (s : Sym) (addition : SymbolAddition)
    (docUri : String) (isUriBinding : Bool) : Sym × List AliasEff × List Event × Bool :=
  let m := amendSymbolMetadata path s addition.data
  if m.2.2.2 then (m.1, m.2.1, m.2.2.1, true)
  else
    let u := amendSymbolUsage path m.1 addition.usage docUri isUriBinding
    (u.1, m.2.1, m.2.2.1 ++ u.2, false)

/-- SymbolUtil.createSymbol: a fresh symbol whose fields are spread from the
addition data, then amendSymbolUsage runs on it. No alias event is published
for an aliasOf carried by the data. The id is the fresh-object counter. -/
def createSymbol (category : String) (counter : Nat) (path : List String) (identifier : String)
    (addition : SymbolAddition) (docUri : String) (isUriBinding : Bool) : Sym × List Event :=
  let d := addition.data
  let c0 : SymCore :=
    { id := counter, category := category, identifier := identifier,
      desc := d.bind (fun x => x.desc),
      subcategory := d.bind (fun x => x.subcategory),
      visibility := d.bind (fun x => x.visibility),
      visibilityRestriction := d.bind (fun x => x.visibilityRestriction),
      aliasOf := d.bind (fun x => x.relations.bind (fun r => r.aliasOf)) }
  amendSymbolUsage path (Sym.mk c0 none) addition.usage docUri isUriBinding

/-- Result of enterMap: the updated map (alias effects not yet applied), the
updated fresh-id counter, the alias effects to apply to the whole state, the
published events in order, and the thrown flag. -/
structure EnterResult where
  map : SymbolMap
  counter : Nat
  effs : List AliasEff
  events : List Event
  threw : Bool

/-- SymbolUtil.enterMap: amend the existing symbol under the identifier and
publish symbolAmended, or create a fresh one. On creation the TS code
evaluates `map[identifier] = this.createSymbol(...)` right to left: the
usage location is recorded and symbolLocationCreated published inside
createSymbol, then the symbol is inserted, then symbolCreated is published.
On a throwing amend the partially mutated symbol stays in the map and
symbolAmended is not published. -/
def enterMap (m : SymbolMap) (category : String) (path : List String) (identifier : String)
    (addition : SymbolAddition) (docUri : String) (isUriBinding : Bool) (counter : Nat) :
    EnterResult :=
  match getVal m identifier with
  | some target =>
    let a := amendSymbol path target addition docUri isUriBinding
    if a.2.2.2 then
      ⟨setVal m identifier a.1, counter, a.2.1, a.2.2.1, true⟩
    else
      ⟨setVal m identifier a.1, counter, a.2.1,
        a.2.2.1 ++ [⟨.symbolAmended, path, a.1.core.id, none⟩], false⟩
  | none =>
    let cr := createSymbol category counter path identifier addition docUri isUriBinding
    ⟨setVal m identifier cr.1, counter + 1, [],
      cr.2 ++ [⟨.symbolCreated, path, counter, none⟩], false⟩

/-- A reference to one table of the chain of a document: the global table or
the stack frame with the given index. It models the TS reference to the
table object returned by SymbolUtil.getTable. -/
inductive TableRef : Type where
  | glob
  | frame (i : Nat)
  deriving DecidableEq

/-- SymbolUtil.getTable: Block goes to the innermost stack frame, File to
frame 0, Public, Restricted and undefined go to the global table. -/
def getTableRef (stackLen : Nat) : Option SymbolVisibility → TableRef
  | some .Block => .frame (stackLen - 1)
  | some .File => .frame 0
  | _ => .glob

def UtilState.readTable (st : UtilState) (uri : String) : TableRef → SymbolTable
  | .glob => st.global
  | .frame i => (st.getStackList uri).getD i []

def UtilState.writeTable (st : UtilState) (uri : String) : TableRef → SymbolTable → UtilState
  | .glob, tb => { st with global := tb }
  | .frame i, tb =>
    { st with docStacks := setVal st.docStacks uri ((st.getStackList uri).set i tb) }

/-- The chain of a document ordered innermost first (the traversal order of
lookupTables), with the reference of each table. -/
def UtilState.chainRev (st : UtilState) (uri : String) : List (TableRef × SymbolTable) :=
  let stack := st.getStackList uri
  (((List.range stack.length).map (fun i => (TableRef.frame i, stack.getD i []))).reverse)
    ++ [(TableRef.glob, st.global)]

/-- The innermost table of the chain in which lookupTable finds the symbol;
it is the table whose map object the query of the TS code holds on to. -/
def winningRefGo (category : String) (path : List String) :
    List (TableRef × SymbolTable) → Option TableRef
  | [] => none
  | (ref, tb) :: rest =>
    if (lookupTable tb category path).symbol.isSome then some ref
    else winningRefGo category path rest

/-- The created-with-URI rule of SymbolQuery.enter: when the query was
constructed from a bare URI string, a range provided in the usage is
replaced by the degenerate range. -/
def tweakUriAddition (a : SymbolAddition) : SymbolAddition :=
  match a.usage with
  | none => a
  | some u =>
    match u.range with
    | none => a
    | some _ => { a with usage := some { u with range := some (0, 0) } }

/-- The composition `util.query(uri, category, identifier).enter(addition)`
of SymbolQuery for a top-level path (length one), called on a bare URI
string. The query looks the symbol up; when it is present and visible the
entering map is the category map of the innermost table in which it was
found, otherwise `getTable(stack, global, addition.data?.visibility)` picks
the tier and its category map is materialized. The alias effects of the
enter are then applied to the whole state and the events appended. The
boolean is the thrown flag. -/
def queryEnterTopLevel (st0 : UtilState) (uri category identifier : String)
    (addition : SymbolAddition) : UtilState × Bool :=
  let st := st0.ensureStack uri
  let r := st.lookup category [identifier] (some uri)
  let vis : Bool := match r.symbol with
    | some s => isVisible s
    | none => false
  let addition := tweakUriAddition addition
  let ref : TableRef :=
    if vis then (winningRefGo category [identifier] (st.chainRev uri)).getD .glob
    else getTableRef (st.getStackList uri).length (addition.data.bind (fun d => d.visibility))
  let tb := st.readTable uri ref
  let m0 := (getVal tb category).getD []
  let er := enterMap m0 category [identifier] identifier addition uri st.isUriBinding st.counter
  let st1 := st.writeTable uri ref (setVal tb category er.map)
  let st2 := st1.applyEffs er.effs
  ({ st2 with counter := er.counter, events := st2.events ++ er.events }, er.threw)

/-- Reference-count effects of removing one symbol in trimMap: the direct
decrement of the target of a removed alias, followed by the decrement done
by the symbolRemoved handler chain. Both are decrement-when-defined. -/
def removalEffs (c : SymCore) : List AliasEff :=
  match c.aliasOf with
  | some t => [.removed t, .removed t]
  | none => []

/-- Events published when trimMap removes one symbol: symbolRemoved, then
(from the constructor handler, when the symbol is an alias)
symbolAliasRemoved. -/
def symbolRemovedEvents (path : List String) (c : SymCore) : List Event :=
  ⟨.symbolRemoved, path, c.id, none⟩ ::
    (match c.aliasOf with
     | some t => [⟨.symbolAliasRemoved, path, c.id, some t⟩]
     | none => [])

/-- SymbolUtil.trimMap. The in-place pointer mutations of the TS code are
reproduced by threading effects: `pending` holds, in order, the alias
effects published before an entry is reached, and is applied to its core
when the entry is read, exactly like the TS fresh read of a mutated object;
effects generated later are applied to already-emitted entries on return.
Iteration follows the Object.keys snapshot, which the loop itself never
shrinks at the current level. A removable symbol is dropped, with the direct
decrement and the handler decrement of its alias target; a kept symbol with
a member map has the map trimmed recursively and deleted when emptied. The
fuel argument makes the recursion total; every call below passes more fuel
than the structure size, so the zero-fuel branch is unreachable. -/
def trimMapGoF (fuel : Nat) (pending : List AliasEff) (path : List String) (m : SymbolMap) :
    SymbolMap × List AliasEff × List Event :=
  match fuel with
  | 0 => (m, [], [])
  | fuel + 1 =>
    match m with
    | [] => ([], [], [])
    | (k, s) :: rest =>
      let c := applyEffsCore pending s.core
      if c.trimable then
        let es := removalEffs c
        let r := trimMapGoF fuel (pending ++ es) path rest
        (r.1, es ++ r.2.1, symbolRemovedEvents path c ++ r.2.2)
      else
        match s.members with
        | some mm =>
          let rm := trimMapGoF fuel pending (path ++ [k]) mm
          let s1 := Sym.mk (applyEffsCore rm.2.1 c)
            (if rm.1.isEmpty then none else some rm.1)
          let r := trimMapGoF fuel (pending ++ rm.2.1) path rest
          ((k, applyEffsSym r.2.1 s1) :: r.1, rm.2.1 ++ r.2.1, rm.2.2 ++ r.2.2)
        | none =>
          let r := trimMapGoF fuel pending path rest
          ((k, applyEffsSym r.2.1 (Sym.mk c none)) :: r.1, r.2.1, r.2.2)

/-- SymbolUtil.trimMap on a whole map, with enough fuel. -/
def trimMap (pending : List AliasEff) (path : List String) (m : SymbolMap) :
    SymbolMap × List AliasEff × List Event :=
  trimMapGoF (sizeMap m + 1) pending path m

/-- SymbolUtil.trim: trim the map of every category and delete a category
whose map was emptied. Effects generated in one category are applied to
later categories before they are trimmed and to earlier results on return. -/
def trimTableGo (pending : List AliasEff) : SymbolTable → SymbolTable × List AliasEff × List Event
  | [] => ([], [], [])
  | (cat, m) :: rest =>
    let rm := trimMap pending [] m
    let r := trimTableGo (pending ++ rm.2.1) rest
    let entry : SymbolTable := if rm.1.isEmpty then [] else [(cat, applyEffsMap r.2.1 rm.1)]
    (entry ++ r.1, rm.2.1 ++ r.2.1, rm.2.2 ++ r.2.2)

/-- SymbolUtil.trim as a pure table transformation. -/
def trimTable (tb : SymbolTable) : SymbolTable :=
  (trimTableGo [] tb).1

/-- SymbolUtil.trim applied to the global table of the state, which is what
every call site in the repository passes. Alias targets living in document
stacks receive the published reference-count effects. -/
def UtilState.trim (st : UtilState) : UtilState :=
  let r := trimTableGo [] st.global
  { st with
    global := r.1,
    docStacks := st.docStacks.map (fun q => (q.1, q.2.map (applyEffsTable r.2.1))),
    events := st.events ++ r.2.2 }

/-- One pass of the location filter of removeLocationsFromMap over one usage
list: matching locations are dropped, publishing symbolLocationRemoved in
list order; the others are kept in order. -/
def filterLocs (p : SymbolLocation → Bool) (path : List String) (symId : Nat) :
    List SymbolLocation → List SymbolLocation × List Event
  | [] => ([], [])
  | l :: rest =>
    let r := filterLocs p path symId rest
    if p l then (r.1, ⟨.symbolLocationRemoved, path, symId, none⟩ :: r.2)
    else (l :: r.1, r.2)

/-- The per-kind step of removeLocationsFromMap: an absent list is skipped,
a present list is filtered and stays present (possibly empty). -/
def removeLocsField (p : SymbolLocation → Bool) (path : List String) (symId : Nat) :
    Option (List SymbolLocation) → Option (List SymbolLocation) × List Event
  | none => (none, [])
  | some arr =>
    let r := filterLocs p path symId arr
    (some r.1, r.2)

/-- removeLocationsFromMap on one symbol core: the five usage kinds are
processed in the order of SymbolUsageTypes. -/
def removeLocsCore (p : SymbolLocation → Bool) (path : List String) (c : SymCore) :
    SymCore × List Event :=
  let r1 := removeLocsField p path c.id c.declaration
  let r2 := removeLocsField p path c.id c.definition
  let r3 := removeLocsField p path c.id c.implementation
  let r4 := removeLocsField p path c.id c.reference
  let r5 := removeLocsField p path c.id c.typeDefinition
  ({ c with
      declaration := r1.1
      definition := r2.1
      implementation := r3.1
      reference := r4.1
      typeDefinition := r5.1 },
    r1.2 ++ r2.2 ++ r3.2 ++ r4.2 ++ r5.2)

/-- SymbolUtil.removeLocationsFromMap: filter every usage list of every
symbol, recursing into member maps (which are kept even when emptied; the
subsequent trim prunes them). The fuel argument makes the nested recursion
total; every call passes more fuel than the structure size. -/
def removeLocsMapF (fuel : Nat) (p : SymbolLocation → Bool) (path : List String)
    (m : SymbolMap) : SymbolMap × List Event :=
  match fuel with
  | 0 => (m, [])
  | fuel + 1 =>
    match m with
    | [] => ([], [])
    | (k, s) :: rest =>
      let rc := removeLocsCore p path s.core
      let sub : Option SymbolMap × List Event :=
        match s.members with
        | none => (none, [])
        | some mm =>
          let r := removeLocsMapF fuel p (path ++ [k]) mm
          (some r.1, r.2)
      let r2 := removeLocsMapF fuel p path rest
      ((k, Sym.mk rc.1 sub.1) :: r2.1, rc.2 ++ sub.2 ++ r2.2)

/-- SymbolUtil.removeLocationsFromMap with enough fuel. -/
def removeLocsMap (p : SymbolLocation → Bool) (path : List String) (m : SymbolMap) :
    SymbolMap × List Event :=
  removeLocsMapF (sizeMap m + 1) p path m

/-- SymbolUtil.removeLocations applied to the global table of the state,
which is what every call site in the repository passes: filter the matching
locations out of every category map, then trim the table. -/
def UtilState.removeLocations (st : UtilState) (p : SymbolLocation → Bool) : UtilState :=
  let pairs : List (String × (SymbolMap × List Event)) :=
    st.global.map (fun q => (q.1, removeLocsMap p [] q.2))
  let g1 : SymbolTable := pairs.map (fun q => (q.1, q.2.1))
  let evs : List (List Event) := pairs.map (fun q => q.2.2)
  let st1 := { st with global := g1, events := st.events ++ evs.flatten }
  st1.trim

/-- SymbolUtil.clear: drop the document stack of the URI, then retract its
non-URI-bound locations from the global table. -/
def UtilState.clear (st : UtilState) (uri : String) : UtilState :=
  let st1 := { st with docStacks := st.docStacks.filter (fun q => q.1 != uri) }
  st1.removeLocations (fun l => !l.isUriBound && l.uri == uri)

/-- The message of the fatal error thrown when popping would remove the last
stack frame. -/
def blockFatalMsg : String :=
  "Unable to pop a block out as it is the last element in this stack"

/-- Pushing a fresh block frame onto the stack of a document. -/
def UtilState.pushFrame (st : UtilState) (uri : String) : UtilState :=
  { st with docStacks := setVal st.docStacks uri (st.getStackList uri ++ [[]]) }

/-- SymbolUtil.block: get (or implicitly create) the stack of the URI, push
a fresh frame, run the callback, and in the finally clause throw the fatal
error when the stack is down to its last frame, otherwise pop and propagate
the outcome of the callback. The callback is an arbitrary state transformer
returning an optional thrown error; the stack array captured by reference in
the TS code is modelled as the stack stored under the URI. -/
def block (uri : String) (fn : UtilState → UtilState × Option String) (st0 : UtilState) :
    UtilState × Option String :=
  let st1 := (st0.ensureStack uri).pushFrame uri
  let fr := fn st1
  let s := fr.1.getStackList uri
  if s.length ≤ 1 then (fr.1, some blockFatalMsg)
  else ({ fr.1 with docStacks := setVal fr.1.docStacks uri s.dropLast }, fr.2)

/-- SymbolUtil.uriBinding: set the isUriBinding flag, retract every
URI-bound location from the global table, run the callback, log (never
propagate) an error it throws, and reset the flag in the finally clause. -/
def uriBinding (fn : UtilState → UtilState × Option String) (st0 : UtilState) : UtilState :=
  let st1 := { st0 with isUriBinding := true }
  let st2 := st1.removeLocations (fun l => l.isUriBound)
  let fr := fn st2
  match fr.2 with
  | none => { fr.1 with isUriBinding := false }
  | some e => { fr.1 with log := fr.1.log ++ [e], isUriBinding := false }

/-- Every usage location recorded on a symbol core, over the five kinds. -/
def coreLocs (c : SymCore) : List SymbolLocation :=
  c.declaration.getD [] ++ c.definition.getD [] ++ c.implementation.getD []
    ++ c.reference.getD [] ++ c.typeDefinition.getD []

/-- Whether some usage location of the core satisfies the predicate. -/
def anyLocCore (p : SymbolLocation → Bool) (c : SymCore) : Bool :=
  (coreLocs c).any p

/-- Whether some usage location in the map (recursively) satisfies the
predicate. -/
def anyLocMap (p : SymbolLocation → Bool) (m : SymbolMap) : Bool :=
  (coresOfMap m).any (anyLocCore p)

/-- Whether some usage location in the table satisfies the predicate. -/
def anyLocTable (p : SymbolLocation → Bool) (tb : SymbolTable) : Bool :=
  (coresOfTable tb).any (anyLocCore p)

/-- Whether some usage location anywhere in the state (global table or any
document stack) satisfies the predicate. -/
def UtilState.anyLoc (st : UtilState) (p : SymbolLocation → Bool) : Bool :=
  st.allCores.any (anyLocCore p)

mutual

/-- Whether neither the symbol nor any member carries an aliasOf relation. -/
def noAliasSym : Sym → Bool
  | .mk c ms => c.aliasOf.isNone && noAliasMembers ms

def noAliasMembers : Option (List (String × Sym)) → Bool
  | none => true
  | some l => noAliasMap l

def noAliasMap : List (String × Sym) → Bool
  | [] => true
  | (_, s) :: rest => noAliasSym s && noAliasMap rest

end

/-- Whether no symbol of the table (recursively) carries an aliasOf
relation. -/
def noAliasTable : SymbolTable → Bool
  | [] => true
  | (_, m) :: rest => noAliasMap m && noAliasTable rest

mutual

/-- A symbol the trim pass leaves exactly as it is: it is not removable and
its member map, when present, is non-empty and clean. -/
def cleanSym : Sym → Bool
  | .mk c ms => !c.trimable && cleanMembers ms

def cleanMembers : Option (List (String × Sym)) → Bool
  | none => true
  | some l => !l.isEmpty && cleanMap l

def cleanMap : List (String × Sym) → Bool
  | [] => true
  | (_, s) :: rest => cleanSym s && cleanMap rest

end

/-- A table the trim pass leaves exactly as it is: every category map is
non-empty and clean. -/
def cleanTable : SymbolTable → Bool
  | [] => true
  | (_, m) :: rest => !m.isEmpty && cleanMap m && cleanTable rest

/-- The URI of the document used by the concrete scenarios below. -/
def exUri : String := "file:///a.mcfunction"

/-- Scenario for the alias-count invariant: step 1, enter a target symbol T
with a declaration usage. -/
def c1Add1 : SymbolAddition :=
  { usage := some { type := some .declaration, range := some (0, 1) } }

/-- Step 2: enter a symbol B with a reference usage. -/
def c1Add2 : SymbolAddition :=
  { usage := some { type := some .reference } }

/-- Step 3: amend B, making it an alias of T (the symbol with id 0). -/
def c1Add3 : SymbolAddition :=
  { data := some { relations := some { aliasOf := some 0 } } }

/-- Step 4: enter a fresh symbol A that is created directly as an alias of T
with a reference usage. -/
def c1Add4 : SymbolAddition :=
  { data := some { relations := some { aliasOf := some 0 } }
    usage := some { type := some .reference } }

/-- The state reached from the empty SymbolUtil state by the four enters:
T is created (id 0), B is created (id 1), B is amended into an alias of T
(the event mechanism sets T.aliasAmount to 1), then A (id 2) is created
directly as an alias of T, which publishes no alias event. -/
def c1State : UtilState :=
  let s1 := (queryEnterTopLevel {} exUri "advancement" "T" c1Add1).1
  let s2 := (queryEnterTopLevel s1 exUri "advancement" "B" c1Add2).1
  let s3 := (queryEnterTopLevel s2 exUri "advancement" "B" c1Add3).1
  (queryEnterTopLevel s3 exUri "advancement" "A" c1Add4).1

/-- A global-table symbol `a` that has a member `b` (ids 1 and 2). -/
def c2GlobalTable : SymbolTable :=
  [("advancement",
    [("a", .mk { id := 1, category := "advancement", identifier := "a" }
      (some [("b", .mk { id := 2, category := "advancement", identifier := "b" } none)]))])]

/-- A file-scope table with a symbol `a` (id 10) that has no members: it
contains part of the path a.b but not the leaf. -/
def c2FileTable : SymbolTable :=
  [("advancement",
    [("a", .mk { id := 10, category := "advancement", identifier := "a" } none)])]

/-- A symbol with Public visibility and no description. -/
def c3Sym : Sym :=
  .mk { id := 0, category := "advancement", identifier := "S", visibility := some .Public } none

/-- An addition carrying both a description and a Block visibility, whose
tier differs from the Public tier of c3Sym. -/
def c3Add : SymbolAddition :=
  { data := some { desc := some "new description", visibility := some .Block } }

/-- A trim scenario: T (id 0) has no usages and aliasAmount 2; A (id 1) is a
removable alias of T; B (id 2) is an alias of T with a reference usage. The
table is alias-consistent: exactly two live aliases point at T. -/
def c4Table : SymbolTable :=
  [("advancement",
    [("T", .mk { id := 0
                 category := "advancement"
                 identifier := "T"
                 aliasAmount := some 2 } none),
     ("A", .mk { id := 1
                 category := "advancement"
                 identifier := "A"
                 aliasOf := some 0 } none),
     ("B", .mk { id := 2
                 category := "advancement"
                 identifier := "B"
                 aliasOf := some 0
                 reference := some [{ uri := "file:///b.mcfunction" }] } none)])]

/-- A symbol with an existing visibility restriction list. -/
def c6Sym : Sym :=
  .mk { id := 0
        category := "advancement"
        identifier := "S"
        visibilityRestriction := some ["file:///rootA/"] } none

/-- An addition carrying a new visibility restriction list. -/
def c6Add : SymbolAdditionData :=
  { visibilityRestriction := some ["file:///rootB/"] }

/-- A state whose document stack holds a File-visibility symbol with a
URI-bound reference location, as produced by a URI binder that entered a
File-visibility symbol. -/
def c8State : UtilState :=
  { docStacks :=
      [(exUri,
        [[("advancement",
          [("S", .mk { id := 5
                       category := "advancement"
                       identifier := "S"
                       visibility := some .File
                       reference := some [{ uri := exUri, isUriBound := true }] } none)])]])] }


/-- The core after the desc, relations and subcategory merge steps of
amendSymbolMetadata: desc and subcategory are overwritten when present in
the addition, and the aliasOf assigned by the relations step is abstracted. -/
def mergedCore (c0 : SymCore) (d : SymbolAdditionData) (ao : Option Nat) : SymCore :=
  { c0 with
    desc := match d.desc with | some x => some x | none => c0.desc
    subcategory := match d.subcategory with | some y => some y | none => c0.subcategory
    aliasOf := ao }

/-! ## Helper lemmas -/

theorem getVal_setVal_self {α : Type} (m : List (String × α)) (k : String) (v : α) :
    getVal (setVal m k v) k = some v := by
  induction m with
  | nil => simp [setVal, getVal]
  | cons h rest ih =>
    obtain ⟨k1, v1⟩ := h
    by_cases hk : k1 = k
    · simp [setVal, getVal, hk]
    · simp [setVal, getVal, hk, ih]

theorem relStep_shape (path : List String) (c : SymCore) (d : SymbolAdditionData) :
    ∃ ao, (relStep path c d).1 = { c with aliasOf := ao } := by
  rcases hr : d.relations with _ | rel
  · exact ⟨c.aliasOf, by simp [relStep, hr]⟩
  · rcases ha : rel.aliasOf with _ | t
    · exact ⟨c.aliasOf, by simp [relStep, hr, ha]⟩
    · by_cases h : c.aliasOf = some t
      · exact ⟨some t, by simp [relStep, hr, ha, h]⟩
      · rcases ho : c.aliasOf with _ | old
        · exact ⟨some t, by simp [relStep, hr, ha, h, ho]⟩
        · exact ⟨some t, by simp [relStep, hr, ha, h, ho]; split <;> rfl⟩

theorem relStep_keeps (path : List String) (c : SymCore) (d : SymbolAdditionData) :
    (relStep path c d).1.visibility = c.visibility
    ∧ (relStep path c d).1.visibilityRestriction = c.visibilityRestriction
    ∧ (relStep path c d).1.desc = c.desc
    ∧ (relStep path c d).1.subcategory = c.subcategory
    ∧ (∀ t, (relStep path c d).1.locs t = c.locs t)
    ∧ (relStep path c d).1.aliasAmount = c.aliasAmount := by
  obtain ⟨ao, h⟩ := relStep_shape path c d
  rw [h]
  exact ⟨rfl, rfl, rfl, rfl, fun t => by cases t <;> rfl, rfl⟩

theorem vrStep_shape (c : SymCore) (d : SymbolAdditionData) :
    ∃ vr, vrStep c d = { c with visibilityRestriction := vr } := by
  rcases hv : d.visibilityRestriction with _ | l
  · exact ⟨c.visibilityRestriction, by simp [vrStep, hv]⟩
  · by_cases he : l.isEmpty
    · exact ⟨c.visibilityRestriction, by simp [vrStep, hv, he]⟩
    · exact ⟨some (c.visibilityRestriction.getD [] ++ l), by simp [vrStep, hv, he]⟩

theorem vrStep_app (c : SymCore) (d : SymbolAdditionData) (l : List String)
    (h : d.visibilityRestriction = some l) (hne : l.isEmpty = false) :
    vrStep c d = { c with visibilityRestriction := some (c.visibilityRestriction.getD [] ++ l) } := by
  simp [vrStep, h, hne]

theorem amendSymbolMetadata_eq (path : List String) (c0 : SymCore) (ms : Option SymbolMap)
    (d : SymbolAdditionData) :
    ∃ ao effs evs,
      (d.visibility = none →
        amendSymbolMetadata path (.mk c0 ms) (some d)
          = (Sym.mk (vrStep (mergedCore c0 d ao) d) ms, effs, evs, false))
      ∧ (∀ v, d.visibility = some v →
          ((c0.visibility = some v
              ∨ (inGlobalTable c0.visibility = true ∧ inGlobalTable (some v) = true)) →
            amendSymbolMetadata path (.mk c0 ms) (some d)
              = (Sym.mk (vrStep { mergedCore c0 d ao with visibility := some v } d) ms,
                  effs, evs, false))
          ∧ (¬(c0.visibility = some v
              ∨ (inGlobalTable c0.visibility = true ∧ inGlobalTable (some v) = true)) →
            amendSymbolMetadata path (.mk c0 ms) (some d)
              = (Sym.mk (mergedCore c0 d ao) ms, effs, evs, true))) := by
  rcases hdesc : d.desc with _ | x
  · obtain ⟨ao, hrel⟩ := relStep_shape path c0 d
    refine ⟨ao, (relStep path c0 d).2.1, (relStep path c0 d).2.2, ?_, ?_⟩
    · intro hv
      rcases hsub : d.subcategory with _ | y <;>
        simp [amendSymbolMetadata, Sym.core, Sym.members, mergedCore, hdesc, hsub, hv, hrel]
    · intro v hv
      constructor
      · intro hacc
        rcases hsub : d.subcategory with _ | y <;>
          simp [amendSymbolMetadata, Sym.core, Sym.members, mergedCore, hdesc, hsub, hv, hrel,
            hacc]
      · intro hrej
        rcases hsub : d.subcategory with _ | y <;>
          simp [amendSymbolMetadata, Sym.core, Sym.members, mergedCore, hdesc, hsub, hv, hrel,
            hrej]
  · obtain ⟨ao, hrel⟩ := relStep_shape path { c0 with desc := some x } d
    refine ⟨ao, (relStep path { c0 with desc := some x } d).2.1,
      (relStep path { c0 with desc := some x } d).2.2, ?_, ?_⟩
    · intro hv
      rcases hsub : d.subcategory with _ | y <;>
        simp [amendSymbolMetadata, Sym.core, Sym.members, mergedCore, hdesc, hsub, hv, hrel]
    · intro v hv
      constructor
      · intro hacc
        rcases hsub : d.subcategory with _ | y <;>
          simp [amendSymbolMetadata, Sym.core, Sym.members, mergedCore, hdesc, hsub, hv, hrel,
            hacc]
      · intro hrej
        rcases hsub : d.subcategory with _ | y <;>
          simp [amendSymbolMetadata, Sym.core, Sym.members, mergedCore, hdesc, hsub, hv, hrel,
            hrej]

/-! ## Claim C3 -/

/-- C3 (counterexample): amending the Public symbol c3Sym with an addition
that carries both a description and a Block visibility throws the fatal
tier error, yet the description of the symbol has been changed by the
failed call, so the symbol is not left completely unmodified. -/
theorem c3_counterexample :
    (amendSymbol [] c3Sym c3Add exUri false).2.2.2 = true
    ∧ c3Sym.core.desc = none
    ∧ (amendSymbol [] c3Sym c3Add exUri false).1.core.desc = some "new description" := by
  decide

/-- C3 (amended): an enter or amend whose addition carries a visibility
mapping to a different storage tier throws the fatal error, and the failed
call leaves the visibility, the visibility restriction, every usage-kind
location list and the member map of the symbol unchanged; the description,
subcategory and alias relations of the same addition, merged before the
visibility check, may however already have been applied. -/
theorem c3_tier_mismatch_throw_keeps_fields
    (path : List String) (s : Sym) (a : SymbolAddition) (docUri : String) (iub : Bool)
    (d : SymbolAdditionData) (v : SymbolVisibility)
    (hdata : a.data = some d) (hv : d.visibility = some v)
    (hrej : ¬(s.core.visibility = some v
      ∨ (inGlobalTable s.core.visibility = true ∧ inGlobalTable (some v) = true))) :
    (amendSymbol path s a docUri iub).2.2.2 = true
    ∧ (amendSymbol path s a docUri iub).1.core.visibility = s.core.visibility
    ∧ (amendSymbol path s a docUri iub).1.core.visibilityRestriction
        = s.core.visibilityRestriction
    ∧ (∀ t, (amendSymbol path s a docUri iub).1.core.locs t = s.core.locs t)
    ∧ (amendSymbol path s a docUri iub).1.members = s.members := by
  rcases s with ⟨c0, ms⟩
  obtain ⟨ao, effs, evs, _, hsome⟩ := amendSymbolMetadata_eq path c0 ms d
  have heq := (hsome v hv).2 (by simpa [Sym.core] using hrej)
  refine ⟨?_, ?_, ?_, ?_, ?_⟩
  · simp [amendSymbol, hdata, heq]
  · simp [amendSymbol, hdata, heq, Sym.core, mergedCore]
  · simp [amendSymbol, hdata, heq, Sym.core, mergedCore]
  · intro t
    cases t <;> simp [amendSymbol, hdata, heq, Sym.core, mergedCore, SymCore.locs]
  · simp [amendSymbol, hdata, heq, Sym.members]

/-- Witness for c3_tier_mismatch_throw_keeps_fields at the concrete input of the
counterexample. -/
theorem c3_tier_mismatch_throw_keeps_fields_witness :
    (amendSymbol [] c3Sym c3Add exUri false).2.2.2 = true
    ∧ (amendSymbol [] c3Sym c3Add exUri false).1.core.visibility = c3Sym.core.visibility := by
  have h := c3_tier_mismatch_throw_keeps_fields [] c3Sym c3Add exUri false
    { desc := some "new description", visibility := some .Block } .Block rfl rfl (by decide)
  exact ⟨h.1, h.2.1⟩

/-! ## Claim C6 -/

/-- C6 (counterexample): a visibility restriction present in the addition is
concatenated onto the existing list of the symbol, not overwritten. -/
theorem c6_counterexample :
    c6Sym.core.visibilityRestriction = some ["file:///rootA/"]
    ∧ (amendSymbolMetadata [] c6Sym (some c6Add)).1.core.visibilityRestriction
        = some ["file:///rootA/", "file:///rootB/"]
    ∧ (some ["file:///rootA/", "file:///rootB/"] : Option (List String))
        ≠ some ["file:///rootB/"] := by
  decide

/-- C6 (amended): on an enter or amend of an existing symbol, a description
or subcategory present in the addition overwrites the existing value, a
visibility present in the addition overwrites the existing value when the
call does not throw the tier error, and a non-empty visibility restriction
is appended to the existing list rather than overwriting it. -/
theorem c6_metadata_merge (path : List String) (s : Sym) (d : SymbolAdditionData) :
    (∀ x, d.desc = some x →
      (amendSymbolMetadata path s (some d)).1.core.desc = some x)
    ∧ (∀ y, d.subcategory = some y →
      (amendSymbolMetadata path s (some d)).1.core.subcategory = some y)
    ∧ (∀ v, d.visibility = some v →
        (amendSymbolMetadata path s (some d)).2.2.2 = false →
        (amendSymbolMetadata path s (some d)).1.core.visibility = some v)
    ∧ (∀ l, d.visibilityRestriction = some l → l.isEmpty = false →
        (amendSymbolMetadata path s (some d)).2.2.2 = false →
        (amendSymbolMetadata path s (some d)).1.core.visibilityRestriction
          = some (s.core.visibilityRestriction.getD [] ++ l)) := by
  rcases s with ⟨c0, ms⟩
  obtain ⟨ao, effs, evs, hnone, hsome⟩ := amendSymbolMetadata_eq path c0 ms d
  obtain ⟨vr1, hvr1⟩ := vrStep_shape (mergedCore c0 d ao) d
  refine ⟨?_, ?_, ?_, ?_⟩
  · intro x hx
    rcases hv : d.visibility with _ | v
    · have h1 : (amendSymbolMetadata path (Sym.mk c0 ms) (some d)).1.core.desc
          = (vrStep (mergedCore c0 d ao) d).desc := by rw [hnone hv]; rfl
      rw [h1, hvr1]
      simp [mergedCore, hx]
    · by_cases hacc : c0.visibility = some v
        ∨ (inGlobalTable c0.visibility = true ∧ inGlobalTable (some v) = true)
      · obtain ⟨vr2, hvr2⟩ := vrStep_shape { mergedCore c0 d ao with visibility := some v } d
        have h1 : (amendSymbolMetadata path (Sym.mk c0 ms) (some d)).1.core.desc
            = (vrStep { mergedCore c0 d ao with visibility := some v } d).desc := by
          rw [(hsome v hv).1 hacc]; rfl
        rw [h1, hvr2]
        simp [mergedCore, hx]
      · have h1 : (amendSymbolMetadata path (Sym.mk c0 ms) (some d)).1.core.desc
            = (mergedCore c0 d ao).desc := by rw [(hsome v hv).2 hacc]; rfl
        rw [h1]
        simp [mergedCore, hx]
  · intro y hy
    rcases hv : d.visibility with _ | v
    · have h1 : (amendSymbolMetadata path (Sym.mk c0 ms) (some d)).1.core.subcategory
          = (vrStep (mergedCore c0 d ao) d).subcategory := by rw [hnone hv]; rfl
      rw [h1, hvr1]
      simp [mergedCore, hy]
    · by_cases hacc : c0.visibility = some v
        ∨ (inGlobalTable c0.visibility = true ∧ inGlobalTable (some v) = true)
      · obtain ⟨vr2, hvr2⟩ := vrStep_shape { mergedCore c0 d ao with visibility := some v } d
        have h1 : (amendSymbolMetadata path (Sym.mk c0 ms) (some d)).1.core.subcategory
            = (vrStep { mergedCore c0 d ao with visibility := some v } d).subcategory := by
          rw [(hsome v hv).1 hacc]; rfl
        rw [h1, hvr2]
        simp [mergedCore, hy]
      · have h1 : (amendSymbolMetadata path (Sym.mk c0 ms) (some d)).1.core.subcategory
            = (mergedCore c0 d ao).subcategory := by rw [(hsome v hv).2 hacc]; rfl
        rw [h1]
        simp [mergedCore, hy]
  · intro v hv
    by_cases hacc : c0.visibility = some v
      ∨ (inGlobalTable c0.visibility = true ∧ inGlobalTable (some v) = true)
    · intro _
      obtain ⟨vr2, hvr2⟩ := vrStep_shape { mergedCore c0 d ao with visibility := some v } d
      have h1 : (amendSymbolMetadata path (Sym.mk c0 ms) (some d)).1.core.visibility
          = (vrStep { mergedCore c0 d ao with visibility := some v } d).visibility := by
        rw [(hsome v hv).1 hacc]; rfl
      rw [h1, hvr2]
    · have h1 : (amendSymbolMetadata path (Sym.mk c0 ms) (some d)).2.2.2 = true := by
        rw [(hsome v hv).2 hacc]
      rw [h1]
      intro hfalse
      simp at hfalse
  · intro l hl hlne
    rcases hv : d.visibility with _ | v
    · intro _
      have h1 : (amendSymbolMetadata path (Sym.mk c0 ms) (some d)).1.core.visibilityRestriction
          = (vrStep (mergedCore c0 d ao) d).visibilityRestriction := by rw [hnone hv]; rfl
      rw [h1, vrStep_app _ d l hl hlne]
      simp [Sym.core, mergedCore]
    · by_cases hacc : c0.visibility = some v
        ∨ (inGlobalTable c0.visibility = true ∧ inGlobalTable (some v) = true)
      · intro _
        have h1 : (amendSymbolMetadata path (Sym.mk c0 ms) (some d)).1.core.visibilityRestriction
            = (vrStep { mergedCore c0 d ao with visibility := some v } d).visibilityRestriction := by
          rw [(hsome v hv).1 hacc]; rfl
        rw [h1, vrStep_app _ d l hl hlne]
        simp [Sym.core, mergedCore]
      · have h1 : (amendSymbolMetadata path (Sym.mk c0 ms) (some d)).2.2.2 = true := by
          rw [(hsome v hv).2 hacc]
        rw [h1]
        intro hfalse
        simp at hfalse

/-- Witness for c6_metadata_merge at the concrete input of the
counterexample. -/
theorem c6_metadata_merge_witness :
    (amendSymbolMetadata [] c6Sym (some c6Add)).1.core.visibilityRestriction
      = some (c6Sym.core.visibilityRestriction.getD [] ++ ["file:///rootB/"]) := by
  exact (c6_metadata_merge [] c6Sym c6Add).2.2.2 ["file:///rootB/"] rfl rfl (by decide)

/-! ## Claim C1 -/

/-- C1: after the four-enter sequence of c1State (enter T; enter B; amend B
into an alias of T; enter A created directly as an alias of T), the symbol T
is present with a defined aliasAmount of 1, while two currently present
symbols have relations.aliasOf pointing at it: the create path of enterMap
spreads the aliasOf relation from the addition data without publishing
symbolAliasCreated, so the reference count is not incremented. -/
theorem c1_alias_invariant_fails :
    (c1State.coreById 0).map (fun c => c.aliasAmount) = some (some 1)
    ∧ c1State.aliasCountOf 0 = 2
    ∧ (1 : Int) ≠ 2 := by
  decide

/-! ## Claim C5 -/

/-- C5 (counterexample): entering a fresh symbol with a declaration usage
publishes symbolLocationCreated first and symbolCreated second, not the
other way round: the usage location is recorded inside createSymbol, before
the symbol is inserted into the map and symbolCreated is published. -/
theorem c5_counterexample :
    ((enterMap [] "advancement" ["F"] "F" c1Add1 exUri false 0).events.map (fun e => e.kind)
      = [.symbolLocationCreated, .symbolCreated])
    ∧ ([EventKind.symbolLocationCreated, EventKind.symbolCreated]
        ≠ [EventKind.symbolCreated, EventKind.symbolLocationCreated]) := by
  decide

/-- C5 (amended): for every enter on a path where no symbol yet exists and
whose addition carries a usage, the usage location is recorded and
symbolLocationCreated published first (inside createSymbol, before the
symbol is inserted into the map), and symbolCreated is published second. -/
theorem c5_create_event_order
    (m : SymbolMap) (category : String) (path : List String) (identifier : String)
    (a : SymbolAddition) (docUri : String) (iub : Bool) (counter : Nat)
    (u0 : SymbolAdditionUsage)
    (hnone : getVal m identifier = none) (hu : a.usage = some u0) :
    (enterMap m category path identifier a docUri iub counter).events.map (fun e => e.kind)
      = [.symbolLocationCreated, .symbolCreated] := by
  simp [enterMap, hnone, createSymbol, amendSymbolUsage, hu, Sym.core, Sym.members]

/-- Witness for c5_create_event_order at the concrete input of the
counterexample. -/
theorem c5_create_event_order_witness :
    (enterMap [] "advancement" ["F"] "F" c1Add1 exUri false 0).events.map (fun e => e.kind)
      = [.symbolLocationCreated, .symbolCreated] := by
  exact c5_create_event_order [] "advancement" ["F"] "F" c1Add1 exUri false 0
    { type := some .declaration, range := some (0, 1) } rfl rfl

/-! ## Claim C9 -/

/-- C9: resolveAlias follows aliasOf pointers to a fixed point. Along any
finite acyclic chain (an isAliasChain) the recursion terminates within
chain-length steps and returns the last element of the chain, which has no
alias target; on a direct alias cycle (a symbol whose aliasOf points at
itself) no amount of fuel makes the recursion finish, so termination is not
guaranteed without the acyclicity precondition. -/
theorem c9_resolve_alias_fixpoint :
    (∀ (g : Nat → Option Nat) (s : Nat) (l : List Nat),
      isAliasChain g (s :: l) = true →
        resolveAliasFuel g (l.length + 1) s = (s :: l).getLast?
        ∧ ∀ t, (s :: l).getLast? = some t → g t = none)
    ∧ (∀ fuel, resolveAliasFuel (fun _ => some 0) fuel 0 = none) := by
  constructor
  · intro g s l
    induction l generalizing s with
    | nil =>
      intro h
      simp only [isAliasChain, beq_iff_eq] at h
      refine ⟨by simp [resolveAliasFuel, h], ?_⟩
      intro t ht
      simp only [List.getLast?_singleton, Option.some_inj] at ht
      rw [← ht]
      exact h
    | cons y rest ih =>
      intro h
      simp only [isAliasChain, Bool.and_eq_true, beq_iff_eq] at h
      have hstep := ih y h.2
      simp only [List.length_cons, resolveAliasFuel, h.1]
      rw [List.getLast?_cons_cons]
      exact hstep
  · intro fuel
    induction fuel with
    | zero => rfl
    | succ n ih => simp [resolveAliasFuel, ih]

/-- Witness for c9_resolve_alias_fixpoint: the two-element chain from 1 to 0
in the graph that maps 1 to 0. -/
theorem c9_resolve_alias_fixpoint_witness :
    resolveAliasFuel (fun n => if n = 1 then some 0 else none) 2 1 = some 0
    ∧ isAliasChain (fun n => if n = 1 then some 0 else none) [1, 0] = true := by
  constructor
  · have h := (c9_resolve_alias_fixpoint.1 (fun n => if n = 1 then some 0 else none) 1 [0]
      (by decide)).1
    simpa using h
  · decide

/-! ## Claim C2 -/

theorem lookupTablesGo_found (category : String) (path : List String) :
    ∀ (l : List SymbolTable) (recP : Option Sym) (recM : Option SymbolMap) (tb : SymbolTable),
      l.find? (fun t => (lookupTable t category path).symbol.isSome) = some tb →
      lookupTablesGo category path recP recM l = lookupTable tb category path := by
  intro l
  induction l with
  | nil => intro recP recM tb h; simp at h
  | cons t rest ih =>
    intro recP recM tb h
    cases hp : (lookupTable t category path).symbol.isSome with
    | true =>
      simp only [List.find?_cons, hp, Option.some_inj] at h
      subst h
      simp [lookupTablesGo, hp]
    | false =>
      simp only [List.find?_cons, hp] at h
      simp only [lookupTablesGo, hp, Bool.false_eq_true, if_false]
      split
      · exact ih _ _ tb h
      · exact ih _ _ tb h

theorem lookupTablesGo_keep (category : String) (path : List String) :
    ∀ (l : List SymbolTable) (recP : Option Sym) (recM : Option SymbolMap),
      l.find? (fun t => (lookupTable t category path).symbol.isSome) = none →
      (recP.isSome = true ∨ recM.isSome = true) →
      lookupTablesGo category path recP recM l = ⟨recP, recM, none⟩ := by
  intro l
  induction l with
  | nil => intro recP recM _ _; rfl
  | cons t rest ih =>
    intro recP recM h hrec
    cases hp : (lookupTable t category path).symbol.isSome with
    | true =>
      simp only [List.find?_cons, hp] at h
      exact absurd h (by simp)
    | false =>
    simp only [List.find?_cons, hp] at h
    have hcond : (recP.isNone && recM.isNone
        && ((lookupTable t category path).parentSymbol.isSome
          || (lookupTable t category path).map.isSome)) = false := by
      rcases hrec with h1 | h1
      · cases hP : recP.isNone
        · simp [hP]
        · rw [Option.isNone_iff_eq_none] at hP
          rw [hP] at h1
          simp at h1
      · cases hP : recP.isNone
        · simp [hP]
        · cases hM : recM.isNone
          · simp [hP, hM]
          · rw [Option.isNone_iff_eq_none] at hM
            rw [hM] at h1
            simp at h1
    simp only [lookupTablesGo, hp, Bool.false_eq_true, if_false, hcond]
    exact ih recP recM h hrec

theorem lookupTablesGo_record (category : String) (path : List String) :
    ∀ (l : List SymbolTable),
      l.find? (fun t => (lookupTable t category path).symbol.isSome) = none →
      lookupTablesGo category path none none l =
        (match l.find? (fun t => (lookupTable t category path).parentSymbol.isSome
            || (lookupTable t category path).map.isSome) with
        | some tb =>
            ⟨(lookupTable tb category path).parentSymbol, (lookupTable tb category path).map, none⟩
        | none => (⟨none, none, none⟩ : LookupResult)) := by
  intro l
  induction l with
  | nil => intro _; rfl
  | cons t rest ih =>
    intro h
    cases hp : (lookupTable t category path).symbol.isSome with
    | true =>
      simp only [List.find?_cons, hp] at h
      exact absurd h (by simp)
    | false =>
    simp only [List.find?_cons, hp] at h
    cases hpart : ((lookupTable t category path).parentSymbol.isSome
        || (lookupTable t category path).map.isSome) with
    | true =>
      simp only [List.find?_cons, hpart]
      simp only [lookupTablesGo, hp, Bool.false_eq_true, if_false, Option.isNone_none,
        Bool.true_and, hpart, if_true]
      rcases Bool.or_eq_true_iff.mp hpart with h1 | h1
      · exact lookupTablesGo_keep category path rest _ _ h (Or.inl h1)
      · exact lookupTablesGo_keep category path rest _ _ h (Or.inr h1)
    | false =>
      simp only [List.find?_cons, hpart]
      simp only [lookupTablesGo, hp, Bool.false_eq_true, if_false, Option.isNone_none,
        Bool.true_and, hpart, if_false]
      exact ih h

/-- C2 (counterexample): with the chain [global, file] where the file table
(the innermost) holds a symbol `a` without members and the global table
holds `a` with a member `b`, looking up the path a.b does not return the
result of the innermost table containing part of the path (the file table,
whose result has no symbol but carries the handle of its own `a`): it
returns the full result of the global table, whose leaf symbol (id 2) is
found. -/
theorem c2_counterexample :
    ((lookupTable c2FileTable "advancement" ["a", "b"]).parentSymbol.map (fun s => s.core.id)
      = some 10)
    ∧ (lookupTable c2FileTable "advancement" ["a", "b"]).symbol.isSome = false
    ∧ ((lookupTables [c2GlobalTable, c2FileTable] "advancement" ["a", "b"]).symbol.map
        (fun s => s.core.id) = some 2)
    ∧ lookupTables [c2GlobalTable, c2FileTable] "advancement" ["a", "b"]
        ≠ lookupTable c2FileTable "advancement" ["a", "b"] := by
  refine ⟨by decide, by decide, by decide, ?_⟩
  intro h
  have h2 := congrArg (fun r => r.symbol.map (fun s => s.core.id)) h
  revert h2
  decide

/-- C2 (amended): lookupTables searches the chain from the most deeply
nested table to the least nested and returns the full result of the first
table in which the leaf symbol itself is found; only when no table of the
chain contains the leaf symbol does it return a symbol-less result whose
enclosing-map handle (parentSymbol and map) comes from the first table, in
the same innermost-first order, that contains any part of the path. -/
theorem c2_lookup_innermost_leaf_first
    (tables : List SymbolTable) (category : String) (path : List String) :
    (∀ tb, tables.reverse.find? (fun t => (lookupTable t category path).symbol.isSome) = some tb →
      lookupTables tables category path = lookupTable tb category path)
    ∧ (tables.reverse.find? (fun t => (lookupTable t category path).symbol.isSome) = none →
      lookupTables tables category path =
        (match tables.reverse.find? (fun t => (lookupTable t category path).parentSymbol.isSome
            || (lookupTable t category path).map.isSome) with
        | some tb =>
            ⟨(lookupTable tb category path).parentSymbol, (lookupTable tb category path).map, none⟩
        | none => (⟨none, none, none⟩ : LookupResult))) := by
  constructor
  · intro tb h
    exact lookupTablesGo_found category path tables.reverse none none tb h
  · intro h
    exact lookupTablesGo_record category path tables.reverse h

/-- Witness for c2_lookup_innermost_leaf_first at the tables of the
counterexample. -/
theorem c2_lookup_innermost_leaf_first_witness :
    lookupTables [c2GlobalTable, c2FileTable] "advancement" ["a", "b"]
      = lookupTable c2GlobalTable "advancement" ["a", "b"] := by
  exact (c2_lookup_innermost_leaf_first [c2GlobalTable, c2FileTable] "advancement"
    ["a", "b"]).1 c2GlobalTable rfl

/-! ## Claim C10 -/

theorem lookupTablesGo_nil_path (category : String) :
    ∀ (l : List SymbolTable) (recM : Option SymbolMap),
      lookupTablesGo category [] none recM l =
        ⟨none,
          (match recM with
            | some m => some m
            | none => l.findSome? (fun tb => getVal tb category)),
          none⟩ := by
  intro l
  induction l with
  | nil =>
    intro recM
    cases recM <;> rfl
  | cons t rest ih =>
    intro recM
    cases recM with
    | some m =>
      simp only [lookupTablesGo, lookupTable, lookupTableGo]
      simp only [Option.isSome_none, Bool.false_eq_true, if_false, Option.isNone_none,
        Option.isNone_some, Bool.false_and, Bool.and_false]
      exact ih (some m)
    | none =>
      simp only [lookupTablesGo, lookupTable, lookupTableGo, List.findSome?_cons]
      cases hg : getVal t category with
      | none =>
        simp only [Option.isSome_none, Bool.false_eq_true, if_false, Option.isNone_none,
          Bool.true_and, Bool.false_or]
        exact ih none
      | some m =>
        simp only [Option.isSome_none, Option.isSome_some, Bool.false_eq_true, if_false,
          Option.isNone_none, Bool.true_and, Bool.false_or, if_true]
        exact ih (some m)

/-- C10: getVisibleSymbols with a URI draws its result from exactly one
storage tier: the innermost table of the chain [global, frame 0, ..., frame
n] whose entry for the category is present (found by findSome? over the
reversed chain), filtered by visibility; symbols of the same category stored
in the other tiers are omitted and never merged in. -/
theorem c10_visible_symbols_single_tier (st : UtilState) (uri : String) (category : String) :
    st.getVisibleSymbols (some uri) category =
      (((st.global :: st.getStackList uri).reverse.findSome?
          (fun tb => getVal tb category)).getD []).filter (fun q => isVisible q.2) := by
  unfold UtilState.getVisibleSymbols UtilState.lookup lookupTables
  rw [lookupTablesGo_nil_path]
  cases h : (st.global :: st.getStackList uri).reverse.findSome? (fun tb => getVal tb category) with
  | none => simp
  | some m => simp

/-! ## Claim C7 -/

theorem getStackList_ensureStack (st : UtilState) (uri : String) :
    (st.ensureStack uri).getStackList uri = st.getStackList uri := by
  unfold UtilState.ensureStack UtilState.getStackList
  cases h : getVal st.docStacks uri with
  | some s => simp [h]
  | none => simp [h, getVal_setVal_self]

theorem getStackList_pushFrame (st : UtilState) (uri : String) :
    (st.pushFrame uri).getStackList uri = st.getStackList uri ++ [[]] := by
  unfold UtilState.pushFrame UtilState.getStackList
  simp [getVal_setVal_self]

/-- C7: block pushes exactly one fresh frame before running the callback
(the callback starts on a stack one frame longer); when the callback
preserves the frame count of the document, the frame is popped on every exit
path, normal return and error propagation alike, so the stack length after
block equals the length before and the outcome of the callback is
propagated; and when popping would remove the last remaining frame (the
callback shrank the stack to at most one frame), the fatal error is thrown
instead and nothing is popped. -/
theorem c7_block_frame_discipline
    (uri : String) (fn : UtilState → UtilState × Option String) (st : UtilState)
    (hne : 1 ≤ (st.getStackList uri).length) :
    (((st.ensureStack uri).pushFrame uri).getStackList uri).length
        = (st.getStackList uri).length + 1
    ∧ (((fn ((st.ensureStack uri).pushFrame uri)).1.getStackList uri).length
          = (st.getStackList uri).length + 1 →
        ((block uri fn st).1.getStackList uri).length = (st.getStackList uri).length
        ∧ (block uri fn st).2 = (fn ((st.ensureStack uri).pushFrame uri)).2)
    ∧ (((fn ((st.ensureStack uri).pushFrame uri)).1.getStackList uri).length ≤ 1 →
        (block uri fn st).2 = some blockFatalMsg
        ∧ (block uri fn st).1 = (fn ((st.ensureStack uri).pushFrame uri)).1) := by
  have hpush : (((st.ensureStack uri).pushFrame uri).getStackList uri).length
      = (st.getStackList uri).length + 1 := by
    rw [getStackList_pushFrame, getStackList_ensureStack]
    simp
  refine ⟨hpush, ?_, ?_⟩
  · intro hlen
    have hgt : ¬(((fn ((st.ensureStack uri).pushFrame uri)).1.getStackList uri).length ≤ 1) := by
      omega
    constructor
    · unfold block
      simp only [if_neg hgt]
      unfold UtilState.getStackList
      simp only [getVal_setVal_self, Option.getD_some]
      rw [List.length_dropLast]
      unfold UtilState.getStackList at hlen
      omega
    · unfold block
      simp only [if_neg hgt]
  · intro hle
    constructor
    · unfold block
      simp only [if_pos hle]
    · unfold block
      simp only [if_pos hle]

/-- Witness for c7_block_frame_discipline: a callback that throws (the frame
is still popped and the error propagated) and a callback that shrinks the
stack to one frame (the fatal error is thrown). -/
theorem c7_block_frame_discipline_witness :
    (((block exUri (fun s => (s, some "boom")) ({} : UtilState)).1.getStackList exUri).length
        = (({} : UtilState).getStackList exUri).length
      ∧ (block exUri (fun s => (s, some "boom")) ({} : UtilState)).2 = some "boom")
    ∧ (block exUri (fun s => ({ s with docStacks := setVal s.docStacks exUri [[]] }, none))
        ({} : UtilState)).2 = some blockFatalMsg := by
  constructor
  · exact (c7_block_frame_discipline exUri (fun s => (s, some "boom")) {}
      (by decide)).2.1 (by decide)
  · exact ((c7_block_frame_discipline exUri
      (fun s => ({ s with docStacks := setVal s.docStacks exUri [[]] }, none)) {}
      (by decide)).2.2 (by decide)).1

/-! ## Claim C4 -/

theorem applyEffsCore_nil (c : SymCore) : applyEffsCore [] c = c := rfl

theorem applyEffsMap_nil (m : SymbolMap) : applyEffsMap [] m = m := rfl

theorem applyEffsSym_nil (s : Sym) : applyEffsSym [] s = s := rfl

theorem removalEffs_of_noAlias (c : SymCore) (h : c.aliasOf.isNone = true) :
    removalEffs c = [] := by
  unfold removalEffs
  rw [Option.isNone_iff_eq_none] at h
  rw [h]

theorem sizeSym_pos (s : Sym) : 1 ≤ sizeSym s := by
  cases s
  simp [sizeSym]

/-- On an alias-free map, a trim pass generates no reference-count effects
and leaves a clean alias-free map. -/
theorem trimMapGoF_noAlias :
    ∀ (fuel : Nat) (path : List String) (m : SymbolMap),
      noAliasMap m = true → sizeMap m < fuel →
      (trimMapGoF fuel [] path m).2.1 = []
      ∧ noAliasMap (trimMapGoF fuel [] path m).1 = true
      ∧ cleanMap (trimMapGoF fuel [] path m).1 = true := by
  intro fuel
  induction fuel with
  | zero => intro path m _ hsz; omega
  | succ fuel ih =>
    intro path m hna hsz
    match m with
    | [] => exact ⟨rfl, rfl, rfl⟩
    | (k, Sym.mk c0 ms) :: rest =>
      simp only [noAliasMap, noAliasSym, Bool.and_eq_true] at hna
      obtain ⟨⟨h1, h2⟩, h3⟩ := hna
      simp only [sizeMap, sizeSym] at hsz
      have hszrest : sizeMap rest < fuel := by omega
      cases htr : c0.trimable with
      | true =>
        have hr := ih path rest h3 hszrest
        simp only [trimMapGoF, Sym.core, Sym.members, applyEffsCore_nil, htr, if_true,
          removalEffs_of_noAlias c0 h1, List.append_nil, List.nil_append]
        exact hr
      | false =>
        cases ms with
        | none =>
          have hr := ih path rest h3 hszrest
          simp only [trimMapGoF, Sym.core, Sym.members, applyEffsCore_nil, htr, Bool.false_eq_true, if_false,
            List.nil_append]
          rw [hr.1]
          simp only [applyEffsSym_nil]
          refine ⟨by simp, ?_, ?_⟩
          · simp only [noAliasMap, noAliasSym, noAliasMembers, Bool.and_eq_true]
            exact ⟨⟨h1, by simp⟩, hr.2.1⟩
          · simp only [cleanMap, cleanSym, cleanMembers, Bool.and_eq_true]
            exact ⟨⟨by simp [htr], by simp⟩, hr.2.2⟩
        | some mm =>
          have hszmm : sizeMap mm < fuel := by
            simp only [sizeMembers] at hsz
            omega
          have hm := ih (path ++ [k]) mm h2 hszmm
          have hr := ih path rest h3 hszrest
          simp only [trimMapGoF, Sym.core, Sym.members, applyEffsCore_nil, htr, Bool.false_eq_true, if_false]
          rw [hm.1]
          simp only [applyEffsCore_nil, List.nil_append]
          rw [hr.1]
          simp only [applyEffsSym_nil, List.append_nil]
          refine ⟨by simp, ?_, ?_⟩
          · simp only [noAliasMap, noAliasSym, Bool.and_eq_true]
            refine ⟨⟨h1, ?_⟩, hr.2.1⟩
            cases he : (trimMapGoF fuel [] (path ++ [k]) mm).1.isEmpty with
            | true => simp [noAliasMembers]
            | false => simp [noAliasMembers, hm.2.1]
          · simp only [cleanMap, cleanSym, Bool.and_eq_true]
            refine ⟨⟨by simp [htr], ?_⟩, hr.2.2⟩
            cases he : (trimMapGoF fuel [] (path ++ [k]) mm).1.isEmpty with
            | true => simp [cleanMembers]
            | false => simp [cleanMembers, he, hm.2.2]

/-- A clean map is a fixed point of the trim pass. -/
theorem trimMapGoF_clean :
    ∀ (fuel : Nat) (path : List String) (m : SymbolMap),
      cleanMap m = true → sizeMap m < fuel →
      trimMapGoF fuel [] path m = (m, [], []) := by
  intro fuel
  induction fuel with
  | zero => intro path m _ hsz; omega
  | succ fuel ih =>
    intro path m hcl hsz
    match m with
    | [] => rfl
    | (k, Sym.mk c0 ms) :: rest =>
      simp only [cleanMap, cleanSym, Bool.and_eq_true] at hcl
      obtain ⟨⟨h1, h2⟩, h3⟩ := hcl
      have htr : c0.trimable = false := by
        cases h : c0.trimable
        · rfl
        · rw [h] at h1; simp at h1
      simp only [sizeMap, sizeSym] at hsz
      have hszrest : sizeMap rest < fuel := by omega
      have hr := ih path rest h3 hszrest
      cases ms with
      | none =>
        simp only [trimMapGoF, Sym.core, Sym.members, applyEffsCore_nil, htr, Bool.false_eq_true, if_false,
          List.nil_append]
        rw [hr]
        simp [applyEffsSym_nil]
      | some mm =>
        simp only [cleanMembers, Bool.and_eq_true] at h2
        have hszmm : sizeMap mm < fuel := by
          simp only [sizeMembers] at hsz
          omega
        have hm := ih (path ++ [k]) mm h2.2 hszmm
        simp only [trimMapGoF, Sym.core, Sym.members, applyEffsCore_nil, htr, Bool.false_eq_true, if_false]
        rw [hm]
        simp only [List.nil_append]
        rw [hr]
        simp only [applyEffsSym_nil, List.append_nil]
        have hne : mm.isEmpty = false := by
          cases h : mm.isEmpty
          · rfl
          · rw [h] at h2; simp at h2
        simp [hne, applyEffsCore_nil]

/-- On an alias-free table, trimming generates no effects and yields a clean
alias-free table. -/
theorem trimTableGo_noAlias :
    ∀ (tb : SymbolTable), noAliasTable tb = true →
      (trimTableGo [] tb).2.1 = []
      ∧ noAliasTable (trimTableGo [] tb).1 = true
      ∧ cleanTable (trimTableGo [] tb).1 = true := by
  intro tb
  induction tb with
  | nil => intro _; exact ⟨rfl, rfl, rfl⟩
  | cons q rest ih =>
    obtain ⟨cat, m⟩ := q
    intro hna
    simp only [noAliasTable, Bool.and_eq_true] at hna
    have hm := trimMapGoF_noAlias (sizeMap m + 1) [] m hna.1 (by omega)
    have hr := ih hna.2
    simp only [trimTableGo, trimMap]
    rw [hm.1]
    simp only [List.append_nil, List.nil_append]
    rw [hr.1]
    simp only [applyEffsMap_nil, List.append_nil]
    cases he : (trimMapGoF (sizeMap m + 1) [] [] m).1.isEmpty with
    | true =>
      simp only [he, if_true, List.nil_append]
      exact ⟨by simp, hr.2.1, hr.2.2⟩
    | false =>
      simp only [he, Bool.false_eq_true, if_false, List.cons_append, List.nil_append]
      refine ⟨by simp, ?_, ?_⟩
      · simp only [noAliasTable, Bool.and_eq_true]
        exact ⟨hm.2.1, hr.2.1⟩
      · simp only [cleanTable, Bool.and_eq_true]
        exact ⟨⟨by simp [he], hm.2.2⟩, hr.2.2⟩

/-- A clean table is a fixed point of trim. -/
theorem trimTableGo_clean :
    ∀ (tb : SymbolTable), cleanTable tb = true →
      trimTableGo [] tb = (tb, [], []) := by
  intro tb
  induction tb with
  | nil => intro _; rfl
  | cons q rest ih =>
    obtain ⟨cat, m⟩ := q
    intro hcl
    simp only [cleanTable, Bool.and_eq_true] at hcl
    obtain ⟨⟨hne, hclm⟩, hrest⟩ := hcl
    have hm := trimMapGoF_clean (sizeMap m + 1) [] m hclm (by omega)
    have hr := ih hrest
    simp only [trimTableGo, trimMap]
    rw [hm]
    simp only [List.nil_append]
    rw [hr]
    simp only [applyEffsMap_nil, List.append_nil]
    have hne2 : m.isEmpty = false := by
      cases h : m.isEmpty
      · rfl
      · rw [h] at hne; simp at hne
    simp [hne2]

/-- C4 (counterexample): on the alias-consistent table c4Table, one trim
removes the empty alias A and decrements the aliasAmount of T twice (once
directly, once through the symbolRemoved handler chain), leaving T with
aliasAmount 0; a second trim then also removes T, so trim of trim differs
from a single trim. -/
theorem c4_counterexample :
    ((trimTable c4Table).map (fun q => (q.1, q.2.map Prod.fst))
      = [("advancement", ["T", "B"])])
    ∧ ((trimTable (trimTable c4Table)).map (fun q => (q.1, q.2.map Prod.fst))
        = [("advancement", ["B"])])
    ∧ trimTable (trimTable c4Table) ≠ trimTable c4Table := by
  refine ⟨by decide, by decide, ?_⟩
  intro h
  have h2 := congrArg (List.map (fun q => (q.1, q.2.map Prod.fst))) h
  revert h2
  decide

/-- C4 (amended): trim is idempotent on every table in which no symbol
carries an aliasOf relation; on tables with alias relations the
reference-count decrements performed by a removal can make further symbols
removable, so a second trim can remove more, as the counterexample shows. -/
theorem c4_trim_idempotent_no_alias (tb : SymbolTable) (h : noAliasTable tb = true) :
    trimTable (trimTable tb) = trimTable tb := by
  obtain ⟨-, -, hcl⟩ := trimTableGo_noAlias tb h
  unfold trimTable
  rw [trimTableGo_clean _ hcl]

/-- Witness for c4_trim_idempotent_no_alias on the alias-free table
c2GlobalTable. -/
theorem c4_trim_idempotent_no_alias_witness :
    trimTable (trimTable c2GlobalTable) = trimTable c2GlobalTable := by
  exact c4_trim_idempotent_no_alias c2GlobalTable (by decide)

/-! ## Claim C8 -/

theorem coreLocs_applyEffCore (e : AliasEff) (c : SymCore) :
    coreLocs (applyEffCore e c) = coreLocs c := by
  cases e with
  | created t =>
    by_cases h : c.id = t
    · simp [applyEffCore, h, aliasCreatedEffect, coreLocs]
    · simp [applyEffCore, h]
  | removed t =>
    by_cases h : c.id = t
    · rcases ha : c.aliasAmount with _ | n <;>
        simp [applyEffCore, h, aliasRemovedEffect, ha, coreLocs]
    · simp [applyEffCore, h]

theorem anyLocCore_applyEffCore (p : SymbolLocation → Bool) (e : AliasEff) (c : SymCore) :
    anyLocCore p (applyEffCore e c) = anyLocCore p c := by
  unfold anyLocCore
  rw [coreLocs_applyEffCore]

theorem anyLocCore_applyEffsCore (p : SymbolLocation → Bool) (es : List AliasEff) :
    ∀ (c : SymCore), anyLocCore p (applyEffsCore es c) = anyLocCore p c := by
  induction es with
  | nil => intro c; rfl
  | cons e rest ih =>
    intro c
    have h1 : applyEffsCore (e :: rest) c = applyEffsCore rest (applyEffCore e c) := rfl
    rw [h1, ih, anyLocCore_applyEffCore]

theorem coreLocs_effFun :
    (∀ c, coreLocs (aliasCreatedEffect c) = coreLocs c)
    ∧ (∀ c, coreLocs (aliasRemovedEffect c) = coreLocs c) := by
  constructor
  · intro c; rfl
  · intro c
    rcases ha : c.aliasAmount with _ | n <;> simp [aliasRemovedEffect, ha, coreLocs]

mutual

theorem anyLoc_updSym (p : SymbolLocation → Bool) (t : Nat) (f : SymCore → SymCore)
    (hf : ∀ c, coreLocs (f c) = coreLocs c) :
    (s : Sym) →
      (coresOfSym (updSymById t f s)).any (anyLocCore p)
        = (coresOfSym s).any (anyLocCore p)
  | .mk c ms => by
    have hc : anyLocCore p (if c.id = t then f c else c) = anyLocCore p c := by
      by_cases h : c.id = t
      · simp [h, anyLocCore, hf]
      · simp [h]
    simp [updSymById, coresOfSym, List.any_cons, hc, anyLoc_updMembers p t f hf ms]

theorem anyLoc_updMembers (p : SymbolLocation → Bool) (t : Nat) (f : SymCore → SymCore)
    (hf : ∀ c, coreLocs (f c) = coreLocs c) :
    (ms : Option (List (String × Sym))) →
      (coresOfMembers (updMembersById t f ms)).any (anyLocCore p)
        = (coresOfMembers ms).any (anyLocCore p)
  | none => rfl
  | some l => by simp [updMembersById, coresOfMembers, anyLoc_updMap p t f hf l]

theorem anyLoc_updMap (p : SymbolLocation → Bool) (t : Nat) (f : SymCore → SymCore)
    (hf : ∀ c, coreLocs (f c) = coreLocs c) :
    (m : List (String × Sym)) →
      (coresOfMap (updMapById t f m)).any (anyLocCore p)
        = (coresOfMap m).any (anyLocCore p)
  | [] => rfl
  | (k, s) :: rest => by
    simp [updMapById, coresOfMap, List.any_append, anyLoc_updSym p t f hf s,
      anyLoc_updMap p t f hf rest]

end

theorem anyLocMap_applyEffMap (p : SymbolLocation → Bool) (e : AliasEff) (m : SymbolMap) :
    anyLocMap p (applyEffMap e m) = anyLocMap p m := by
  cases e with
  | created t => exact anyLoc_updMap p t aliasCreatedEffect coreLocs_effFun.1 m
  | removed t => exact anyLoc_updMap p t aliasRemovedEffect coreLocs_effFun.2 m

theorem anyLocMap_applyEffsMap (p : SymbolLocation → Bool) (es : List AliasEff) :
    ∀ (m : SymbolMap), anyLocMap p (applyEffsMap es m) = anyLocMap p m := by
  induction es with
  | nil => intro m; rfl
  | cons e rest ih =>
    intro m
    have h1 : applyEffsMap (e :: rest) m = applyEffsMap rest (applyEffMap e m) := rfl
    rw [h1, ih, anyLocMap_applyEffMap]

theorem anyLocSym_applyEffSym (p : SymbolLocation → Bool) (e : AliasEff) (s : Sym) :
    (coresOfSym (applyEffSym e s)).any (anyLocCore p) = (coresOfSym s).any (anyLocCore p) := by
  cases e with
  | created t => exact anyLoc_updSym p t aliasCreatedEffect coreLocs_effFun.1 s
  | removed t => exact anyLoc_updSym p t aliasRemovedEffect coreLocs_effFun.2 s

theorem anyLocSym_applyEffsSym (p : SymbolLocation → Bool) (es : List AliasEff) :
    ∀ (s : Sym),
      (coresOfSym (applyEffsSym es s)).any (anyLocCore p) = (coresOfSym s).any (anyLocCore p) := by
  induction es with
  | nil => intro s; rfl
  | cons e rest ih =>
    intro s
    have h1 : applyEffsSym (e :: rest) s = applyEffsSym rest (applyEffSym e s) := rfl
    rw [h1, ih, anyLocSym_applyEffSym]

theorem filterLocs_no_p (p : SymbolLocation → Bool) (path : List String) (i : Nat) :
    ∀ (arr : List SymbolLocation), ((filterLocs p path i arr).1).any p = false := by
  intro arr
  induction arr with
  | nil => rfl
  | cons l rest ih =>
    by_cases h : p l
    · simp [filterLocs, h, ih]
    · simp [filterLocs, h, ih]

theorem removeLocsField_no_p (p : SymbolLocation → Bool) (path : List String) (i : Nat)
    (o : Option (List SymbolLocation)) :
    ((removeLocsField p path i o).1.getD []).any p = false := by
  cases o with
  | none => rfl
  | some arr => simpa [removeLocsField] using filterLocs_no_p p path i arr

theorem removeLocsCore_no_p (p : SymbolLocation → Bool) (path : List String) (c : SymCore) :
    anyLocCore p (removeLocsCore p path c).1 = false := by
  unfold anyLocCore coreLocs removeLocsCore
  simp [List.any_append, removeLocsField_no_p]

theorem removeLocsMapF_no_p (p : SymbolLocation → Bool) :
    ∀ (fuel : Nat) (path : List String) (m : SymbolMap), sizeMap m < fuel →
      anyLocMap p (removeLocsMapF fuel p path m).1 = false := by
  intro fuel
  induction fuel with
  | zero => intro path m hsz; omega
  | succ fuel ih =>
    intro path m hsz
    match m with
    | [] => rfl
    | (k, Sym.mk c0 ms) :: rest =>
      simp only [sizeMap, sizeSym] at hsz
      have hszrest : sizeMap rest < fuel := by omega
      cases ms with
      | none =>
        simp only [removeLocsMapF, Sym.core, Sym.members]
        simp [anyLocMap, coresOfMap, coresOfSym, coresOfMembers, List.any_append,
          removeLocsCore_no_p]
        simpa [anyLocMap] using ih path rest hszrest
      | some mm =>
        have hszmm : sizeMap mm < fuel := by
          simp only [sizeMembers] at hsz
          omega
        simp only [removeLocsMapF, Sym.core, Sym.members]
        simp [anyLocMap, coresOfMap, coresOfSym, coresOfMembers, List.any_append,
          removeLocsCore_no_p]
        refine ⟨?_, ?_⟩
        · simpa [anyLocMap] using ih (path ++ [k]) mm hszmm
        · simpa [anyLocMap] using ih path rest hszrest

theorem anyLocMap_cons (p : SymbolLocation → Bool) (k : String) (c : SymCore)
    (ms : Option (List (String × Sym))) (rest : List (String × Sym)) :
    anyLocMap p ((k, Sym.mk c ms) :: rest)
      = (anyLocCore p c || (coresOfMembers ms).any (anyLocCore p) || anyLocMap p rest) := by
  simp [anyLocMap, coresOfMap, coresOfSym, List.any_append, Bool.or_assoc]

theorem anyLocTable_cons (p : SymbolLocation → Bool) (cat : String) (m : SymbolMap)
    (rest : SymbolTable) :
    anyLocTable p ((cat, m) :: rest) = (anyLocMap p m || anyLocTable p rest) := by
  simp [anyLocTable, anyLocMap, coresOfTable, List.any_append]

theorem anyLocMap_cons_any (p : SymbolLocation → Bool) (k : String) (s : Sym)
    (rest : List (String × Sym)) :
    anyLocMap p ((k, s) :: rest)
      = ((coresOfSym s).any (anyLocCore p) || anyLocMap p rest) := by
  simp [anyLocMap, coresOfMap, List.any_append]

/-- A trim pass introduces no usage location satisfying the predicate. -/
theorem trimMapGoF_no_p (p : SymbolLocation → Bool) :
    ∀ (fuel : Nat) (pending : List AliasEff) (path : List String) (m : SymbolMap),
      anyLocMap p m = false →
      anyLocMap p (trimMapGoF fuel pending path m).1 = false := by
  intro fuel
  induction fuel with
  | zero => intro pending path m h; exact h
  | succ fuel ih =>
    intro pending path m h
    match m with
    | [] => rfl
    | (k, Sym.mk c0 ms) :: rest =>
      rw [anyLocMap_cons] at h
      simp only [Bool.or_eq_false_iff] at h
      obtain ⟨⟨h1, h2⟩, h3⟩ := h
      cases ms with
      | none =>
        simp only [trimMapGoF, Sym.core, Sym.members]
        cases htr : (applyEffsCore pending c0).trimable with
        | true =>
          simp only [if_true]
          exact ih _ path rest h3
        | false =>
          simp only [Bool.false_eq_true, if_false]
          rw [anyLocMap_cons_any]
          have h4 : (coresOfSym (Sym.mk (applyEffsCore pending c0) none)).any (anyLocCore p)
              = false := by
            simp [coresOfSym, coresOfMembers, anyLocCore_applyEffsCore, h1]
          rw [anyLocSym_applyEffsSym p _ _, h4]
          simp only [Bool.false_or]
          exact ih _ path rest h3
      | some mm =>
        have hmm : anyLocMap p mm = false := by
          simpa [coresOfMembers, anyLocMap] using h2
        have hmm2 := ih pending (path ++ [k]) mm hmm
        simp only [trimMapGoF, Sym.core, Sym.members]
        cases htr : (applyEffsCore pending c0).trimable with
        | true =>
          simp only [if_true]
          exact ih _ path rest h3
        | false =>
          simp only [Bool.false_eq_true, if_false]
          rw [anyLocMap_cons_any]
          have hcore2 : anyLocCore p
              (applyEffsCore (trimMapGoF fuel pending (path ++ [k]) mm).2.1
                (applyEffsCore pending c0)) = false := by
            rw [anyLocCore_applyEffsCore, anyLocCore_applyEffsCore]
            exact h1
          have hmems2 : (coresOfMembers
              (if (trimMapGoF fuel pending (path ++ [k]) mm).1.isEmpty = true then none
               else some (trimMapGoF fuel pending (path ++ [k]) mm).1)).any (anyLocCore p)
              = false := by
            cases he : (trimMapGoF fuel pending (path ++ [k]) mm).1.isEmpty with
            | true => simp [coresOfMembers]
            | false => simpa [coresOfMembers, anyLocMap] using hmm2
          have h4 : (coresOfSym (Sym.mk
              (applyEffsCore (trimMapGoF fuel pending (path ++ [k]) mm).2.1
                (applyEffsCore pending c0))
              (if (trimMapGoF fuel pending (path ++ [k]) mm).1.isEmpty = true then none
               else some (trimMapGoF fuel pending (path ++ [k]) mm).1))).any (anyLocCore p)
              = false := by
            simp only [coresOfSym, List.any_cons, Bool.or_eq_false_iff]
            exact ⟨hcore2, hmems2⟩
          rw [anyLocSym_applyEffsSym p _ _, h4]
          simp only [Bool.false_or]
          exact ih _ path rest h3

theorem anyLocMap_applyEffsMap_false (p : SymbolLocation → Bool) (es : List AliasEff)
    (m : SymbolMap) (h : anyLocMap p m = false) :
    anyLocMap p (applyEffsMap es m) = false := by
  rw [anyLocMap_applyEffsMap]
  exact h

/-- Trimming a table introduces no usage location satisfying the predicate. -/
theorem trimTableGo_no_p (p : SymbolLocation → Bool) :
    ∀ (tb : SymbolTable) (pending : List AliasEff),
      anyLocTable p tb = false →
      anyLocTable p (trimTableGo pending tb).1 = false := by
  intro tb
  induction tb with
  | nil => intro pending _; rfl
  | cons q rest ih =>
    obtain ⟨cat, m⟩ := q
    intro pending h
    rw [anyLocTable_cons] at h
    obtain ⟨h1, h2⟩ := Bool.or_eq_false_iff.mp h
    simp only [trimTableGo, trimMap]
    have hm := trimMapGoF_no_p p (sizeMap m + 1) pending [] m h1
    cases he : (trimMapGoF (sizeMap m + 1) pending [] m).1.isEmpty with
    | true =>
      simp only [he, if_true, List.nil_append]
      exact ih _ h2
    | false =>
      simp only [he, Bool.false_eq_true, if_false, List.cons_append, List.nil_append]
      rw [anyLocTable_cons]
      rw [anyLocMap_applyEffsMap_false p _ _ hm]
      simp only [Bool.false_or]
      exact ih _ h2

/-- After removeLocations with a predicate, the global table holds no
location satisfying that predicate: the per-category filter removes them and
the subsequent trim does not reintroduce any. -/
theorem removeLocations_no_p (st : UtilState) (p : SymbolLocation → Bool) :
    anyLocTable p ((st.removeLocations p).global) = false := by
  unfold UtilState.removeLocations UtilState.trim
  apply trimTableGo_no_p
  have : ∀ (g : SymbolTable),
      anyLocTable p ((g.map (fun q => (q.1, removeLocsMap p [] q.2))).map
        (fun q => (q.1, q.2.1))) = false := by
    intro g
    induction g with
    | nil => rfl
    | cons q rest ih =>
      obtain ⟨cat, m⟩ := q
      simp only [List.map_cons]
      rw [anyLocTable_cons]
      have hm : anyLocMap p (removeLocsMap p [] m).1 = false := by
        unfold removeLocsMap
        exact removeLocsMapF_no_p p (sizeMap m + 1) [] m (by omega)
      rw [hm]
      simp only [Bool.false_or]
      exact ih
  exact this st.global

theorem removeLocations_isUriBinding (st : UtilState) (p : SymbolLocation → Bool) :
    (st.removeLocations p).isUriBinding = st.isUriBinding := rfl

/-- C8 (counterexample): c8State holds a URI-bound location inside a
document stack frame; running uriBinding with a callback that does nothing
leaves that previously URI-bound location in place, so not all previously
URI-bound locations workspace-wide are retracted. -/
theorem c8_counterexample :
    c8State.anyLoc (fun l => l.isUriBound) = true
    ∧ (uriBinding (fun s => (s, none)) c8State).anyLoc (fun l => l.isUriBound) = true := by
  decide

/-- C8 (amended): uriBinding first retracts all previously URI-bound
locations from the global table (locations stored in document stacks are not
retracted), then runs the callback on that state with the URI-binding flag
set; an error raised by the callback is appended to the log and never
propagated, and the flag is reset to false on both exit paths. -/
theorem c8_uri_binding_retracts_global
    (fn : UtilState → UtilState × Option String) (st : UtilState) :
    anyLocTable (fun l => l.isUriBound)
        ((UtilState.removeLocations { st with isUriBinding := true }
          (fun l => l.isUriBound)).global) = false
    ∧ (UtilState.removeLocations { st with isUriBinding := true }
        (fun l => l.isUriBound)).isUriBinding = true
    ∧ (uriBinding fn st).isUriBinding = false
    ∧ ((fn (UtilState.removeLocations { st with isUriBinding := true }
          (fun l => l.isUriBound))).2 = none →
        uriBinding fn st
          = { (fn (UtilState.removeLocations { st with isUriBinding := true }
              (fun l => l.isUriBound))).1 with isUriBinding := false })
    ∧ (∀ e, (fn (UtilState.removeLocations { st with isUriBinding := true }
          (fun l => l.isUriBound))).2 = some e →
        uriBinding fn st
          = { (fn (UtilState.removeLocations { st with isUriBinding := true }
              (fun l => l.isUriBound))).1 with
              log := (fn (UtilState.removeLocations { st with isUriBinding := true }
                (fun l => l.isUriBound))).1.log ++ [e],
              isUriBinding := false }) := by
  refine ⟨removeLocations_no_p _ _, rfl, ?_, ?_, ?_⟩
  · unfold uriBinding
    rcases hf : (fn (UtilState.removeLocations { st with isUriBinding := true }
        (fun l => l.isUriBound))).2 with _ | e
    · simp only [hf]
    · simp only [hf]
  · intro hf
    unfold uriBinding
    simp only [hf]
  · intro e hf
    unfold uriBinding
    simp only [hf]

/-- Witness for c8_uri_binding_retracts_global at the state of the
counterexample with a throwing callback. -/
theorem c8_uri_binding_retracts_global_witness :
    (uriBinding (fun s => (s, some "boom")) c8State).isUriBinding = false
    ∧ uriBinding (fun s => (s, some "boom")) c8State
        = { UtilState.removeLocations { c8State with isUriBinding := true }
            (fun l => l.isUriBound) with
            log := (UtilState.removeLocations { c8State with isUriBinding := true }
              (fun l => l.isUriBound)).log ++ ["boom"],
            isUriBinding := false } := by
  have h := c8_uri_binding_retracts_global (fun s => (s, some "boom")) c8State
  exact ⟨h.2.2.1, h.2.2.2.2 "boom" rfl⟩

end Spyglass
